import Mathlib

/-!
Verification development for the zenith pageserver's versioned page repository
(`pageserver/src/repository.rs` and `pageserver/src/remote_storage.rs`).

The Rust source is shallowly embedded: byte buffers become `List Nat` (each
element a byte value `< 256`), machine integers become `Nat` with explicit
width bounds, and the `Timeline` trait's default method bodies become pure
Lean functions over an explicit store model.  The ordered store (the rocksdb
implementation lives outside the embedded sources) is modelled from the spec
as a list of entries sorted in strictly increasing key order.
-/

namespace Repo

/-- Big-endian encoding of `n` into exactly `w` bytes (most significant
first), as written by `put_u8` / `put_u32` / `put_u64` on a `BytesMut`.
The low byte is `n % 256`, so values wider than `w` bytes are truncated
exactly as a machine-integer store would truncate them. -/
def toBE : Nat → Nat → List Nat
  | 0, _ => []
  | w + 1, n => toBE w (n / 256) ++ [n % 256]

/-- Big-endian decoding of a byte list, as read by `get_u32` / `get_u64`
from a `Bytes` buffer. -/
def fromBE (bs : List Nat) : Nat :=
  bs.foldl (fun acc b => acc * 256 + b) 0

@[simp] theorem toBE_length (w n : Nat) : (toBE w n).length = w := by
  induction w generalizing n with
  | zero => rfl
  | succ w ih => simp [toBE, ih]

theorem fromBE_append (as bs : List Nat) :
    fromBE (as ++ bs) = fromBE as * 256 ^ bs.length + fromBE bs := by
  induction bs using List.reverseRecOn with
  | nil => simp [fromBE]
  | append_singleton bs b ih =>
    rw [← List.append_assoc]
    simp only [fromBE, List.foldl_append, List.foldl_cons, List.foldl_nil] at *
    rw [ih]
    simp only [List.length_append, List.length_singleton]
    ring

theorem fromBE_toBE (w n : Nat) (h : n < 256 ^ w) : fromBE (toBE w n) = n := by
  induction w generalizing n with
  | zero =>
    simp [Nat.pow_zero] at h
    simp [toBE, fromBE, h]
  | succ w ih =>
    have hdiv : n / 256 < 256 ^ w := by
      rw [Nat.div_lt_iff_lt_mul (by norm_num)]
      calc n < 256 ^ (w + 1) := h
        _ = 256 ^ w * 256 := by ring
    simp only [toBE, fromBE_append]
    rw [ih _ hdiv]
    simp [fromBE]
    omega

theorem toBE_fromBE (bs : List Nat) (h : ∀ b ∈ bs, b < 256) :
    toBE bs.length (fromBE bs) = bs := by
  induction bs using List.reverseRecOn with
  | nil => simp [toBE, fromBE]
  | append_singleton bs b ih =>
    have hb : b < 256 := h b (by simp)
    have hbs : ∀ x ∈ bs, x < 256 := fun x hx => h x (by simp [hx])
    have hfb : fromBE (bs ++ [b]) = fromBE bs * 256 + b := by
      simp [fromBE_append bs [b], fromBE]
    simp only [List.length_append, List.length_singleton, toBE, hfb]
    have hdiv : (fromBE bs * 256 + b) / 256 = fromBE bs := by omega
    have hmod : (fromBE bs * 256 + b) % 256 = b := by omega
    rw [hdiv, hmod, ih hbs]

theorem toBE_inj {w a b : Nat} (ha : a < 256 ^ w) (hb : b < 256 ^ w)
    (h : toBE w a = toBE w b) : a = b := by
  have := congrArg fromBE h
  rwa [fromBE_toBE w a ha, fromBE_toBE w b hb] at this

theorem toBE_mem_lt (w n : Nat) : ∀ b ∈ toBE w n, b < 256 := by
  induction w generalizing n with
  | zero => simp [toBE]
  | succ w ih =>
    intro b hb
    simp only [toBE, List.mem_append, List.mem_singleton] at hb
    rcases hb with hb | hb
    · exact ih _ b hb
    · subst hb; exact Nat.mod_lt _ (by norm_num)

/-- Lexicographic strict order on byte lists: the order in which the
ordered store compares encoded keys. -/
def lexLtb : List Nat → List Nat → Bool
  | [], [] => false
  | [], _ :: _ => true
  | _ :: _, [] => false
  | a :: as, b :: bs =>
    if a < b then true
    else if a = b then lexLtb as bs
    else false

theorem lexLtb_append {as bs : List Nat} (cs ds : List Nat)
    (h : as.length = bs.length) :
    lexLtb (as ++ cs) (bs ++ ds) =
      (lexLtb as bs || (decide (as = bs) && lexLtb cs ds)) := by
  induction as generalizing bs with
  | nil =>
    cases bs with
    | nil => simp [lexLtb]
    | cons b bs => simp at h
  | cons a as ih =>
    cases bs with
    | nil => simp at h
    | cons b bs =>
      have h' : as.length = bs.length := by simpa using h
      by_cases hab : a < b
      · simp [lexLtb, hab]
      · by_cases heq : a = b
        · subst heq
          have e1 : lexLtb (a :: (as ++ cs)) (a :: (bs ++ ds)) =
              lexLtb (as ++ cs) (bs ++ ds) := by
            simp [lexLtb, hab]
          have e2 : (a :: as = a :: bs) = (as = bs) := by simp
          simp only [List.cons_append, e1, ih h', e2]
          have e3 : lexLtb (a :: as) (a :: bs) = lexLtb as bs := by
            simp [lexLtb, hab]
          rw [e3]
        · simp [lexLtb, hab, heq]

theorem lexLtb_toBE {w a b : Nat} (ha : a < 256 ^ w) (hb : b < 256 ^ w) :
    lexLtb (toBE w a) (toBE w b) = decide (a < b) := by
  induction w generalizing a b with
  | zero =>
    simp [Nat.pow_zero] at ha hb
    simp [toBE, lexLtb, ha, hb]
  | succ w ih =>
    have hda : a / 256 < 256 ^ w := by
      rw [Nat.div_lt_iff_lt_mul (by norm_num)]
      calc a < 256 ^ (w + 1) := ha
        _ = 256 ^ w * 256 := by ring
    have hdb : b / 256 < 256 ^ w := by
      rw [Nat.div_lt_iff_lt_mul (by norm_num)]
      calc b < 256 ^ (w + 1) := hb
        _ = 256 ^ w * 256 := by ring
    simp only [toBE]
    rw [lexLtb_append _ _ (by simp)]
    rw [ih hda hdb]
    have hmodlt : lexLtb [a % 256] [b % 256] = decide (a % 256 < b % 256) := by
      by_cases hm : a % 256 < b % 256
      · simp [lexLtb, hm]
      · by_cases hme : a % 256 = b % 256
        · simp [lexLtb, hm, hme]
        · simp [lexLtb, hm, hme]
    rw [hmodlt]
    have hbeq : decide (toBE w (a / 256) = toBE w (b / 256)) =
        decide (a / 256 = b / 256) :=
      decide_eq_decide.mpr ⟨fun hh => toBE_inj hda hdb hh, fun hh => by rw [hh]⟩
    rw [hbeq]
    by_cases h1 : a / 256 < b / 256
    · have hab : a < b := by omega
      simp [h1, hab]
    · by_cases h2 : a / 256 = b / 256
      · have hiff : a < b ↔ a % 256 < b % 256 := by omega
        by_cases h3 : a % 256 < b % 256
        · simp [h1, h2, h3, hiff.mpr h3]
        · have h4 : ¬ a < b := fun hh => h3 (hiff.mp hh)
          simp [h1, h2, h3, h4]
      · have h4 : ¬ a < b := by omega
        simp [h1, h2, h4]

/-- `RelTag` from `repository.rs`: identifies a relation fork.
Field widths: `forknum: u8`, `spcnode/dbnode/relnode: u32`. -/
structure RelTag where
  forknum : Nat
  spcnode : Nat
  dbnode : Nat
  relnode : Nat
  deriving DecidableEq, Repr

/-- `BufferTag` from `repository.rs`: `(RelTag, blknum: u32)`. -/
structure BufferTag where
  rel : RelTag
  blknum : Nat
  deriving DecidableEq, Repr

/-- `RepositoryKey` from `repository.rs`: `(BufferTag, lsn: u64)`. -/
structure RepositoryKey where
  tag : BufferTag
  lsn : Nat
  deriving DecidableEq, Repr

/-- `WALRecord` from `repository.rs`: `(lsn: u64, will_init: bool,
rec: Bytes, main_data_offset: u32)`. -/
structure WALRecord where
  lsn : Nat
  will_init : Bool
  rec_bytes : List Nat
  main_data_offset : Nat
  deriving DecidableEq, Repr

/-- The `RelTag` fields fit their machine-integer widths. -/
def RelTag.wf (t : RelTag) : Prop :=
  t.forknum < 2 ^ 8 ∧ t.spcnode < 2 ^ 32 ∧ t.dbnode < 2 ^ 32 ∧ t.relnode < 2 ^ 32

/-- The `BufferTag` fields fit their machine-integer widths. -/
def BufferTag.wf (t : BufferTag) : Prop :=
  t.rel.wf ∧ t.blknum < 2 ^ 32

/-- The `RepositoryKey` fields fit their machine-integer widths. -/
def RepositoryKey.wf (k : RepositoryKey) : Prop :=
  k.tag.wf ∧ k.lsn < 2 ^ 64

/-- The `WALRecord` fields fit their machine-integer widths and the
record payload is a byte string short enough for its `u32` length prefix. -/
def WALRecord.wf (r : WALRecord) : Prop :=
  r.lsn < 2 ^ 64 ∧ r.main_data_offset < 2 ^ 32 ∧ r.rec_bytes.length < 2 ^ 32 ∧
    ∀ b ∈ r.rec_bytes, b < 256

instance (t : RelTag) : Decidable t.wf := by unfold RelTag.wf; infer_instance
instance (t : BufferTag) : Decidable t.wf := by unfold BufferTag.wf; infer_instance
instance (k : RepositoryKey) : Decidable k.wf := by unfold RepositoryKey.wf; infer_instance
instance (r : WALRecord) : Decidable r.wf := by unfold WALRecord.wf; infer_instance

/-- `RelTag::pack`: `put_u8(forknum); put_u32(spcnode); put_u32(dbnode);
put_u32(relnode)`, all big-endian. -/
def RelTag.pack (t : RelTag) : List Nat :=
  toBE 1 t.forknum ++ toBE 4 t.spcnode ++ toBE 4 t.dbnode ++ toBE 4 t.relnode

/-- `BufferTag::pack`: `rel.pack(buf); put_u32(blknum)`. -/
def BufferTag.pack (t : BufferTag) : List Nat :=
  t.rel.pack ++ toBE 4 t.blknum

/-- `RepositoryKey::pack`: `tag.pack(buf); put_u64(lsn)`. -/
def RepositoryKey.pack (k : RepositoryKey) : List Nat :=
  k.tag.pack ++ toBE 8 k.lsn

/-- `WALRecord::pack`: `put_u64(lsn); put_u8(will_init as u8);
put_u32(main_data_offset); put_u32(rec.len() as u32); put_slice(rec)`.
The `as u32` cast truncates, hence the `% 2 ^ 32`. -/
def WALRecord.pack (r : WALRecord) : List Nat :=
  toBE 8 r.lsn ++ [if r.will_init then 1 else 0] ++
    toBE 4 r.main_data_offset ++ toBE 4 (r.rec_bytes.length % 2 ^ 32) ++ r.rec_bytes

/-- `Bytes::get_u8`: consume one byte.  (On an empty buffer the Rust
call panics; the model is only applied to buffers long enough.) -/
def get_u8 (b : List Nat) : Nat × List Nat :=
  (b.headD 0, b.tail)

/-- `Bytes::get_u32`: consume four bytes, big-endian. -/
def get_u32 (b : List Nat) : Nat × List Nat :=
  (fromBE (b.take 4), b.drop 4)

/-- `Bytes::get_u64`: consume eight bytes, big-endian. -/
def get_u64 (b : List Nat) : Nat × List Nat :=
  (fromBE (b.take 8), b.drop 8)

/-- `RelTag::unpack`: read `forknum`, `spcnode`, `dbnode`, `relnode`.
Returns the decoded tag and the unconsumed remainder of the buffer. -/
def RelTag.unpack (b : List Nat) : RelTag × List Nat :=
  let (forknum, b1) := get_u8 b
  let (spcnode, b2) := get_u32 b1
  let (dbnode, b3) := get_u32 b2
  let (relnode, b4) := get_u32 b3
  (⟨forknum, spcnode, dbnode, relnode⟩, b4)

/-- `BufferTag::unpack`: `RelTag::unpack` then `get_u32` for `blknum`. -/
def BufferTag.unpack (b : List Nat) : BufferTag × List Nat :=
  let (rel, b1) := RelTag.unpack b
  let (blknum, b2) := get_u32 b1
  (⟨rel, blknum⟩, b2)

/-- `RepositoryKey::unpack`: `BufferTag::unpack` then `get_u64` for `lsn`. -/
def RepositoryKey.unpack (b : List Nat) : RepositoryKey × List Nat :=
  let (tag, b1) := BufferTag.unpack b
  let (lsn, b2) := get_u64 b1
  (⟨tag, lsn⟩, b2)

/-- `WALRecord::unpack`: read `lsn`, the `will_init` byte (nonzero means
`true`), `main_data_offset`, a `u32` length, then that many payload bytes. -/
def WALRecord.unpack (b : List Nat) : WALRecord × List Nat :=
  let (lsn, b1) := get_u64 b
  let (wi, b2) := get_u8 b1
  let (main_data_offset, b3) := get_u32 b2
  let (len, b4) := get_u32 b3
  (⟨lsn, wi != 0, b4.take len, main_data_offset⟩, b4.drop len)

theorem toBE_one (n : Nat) (h : n < 256) : toBE 1 n = [n] := by
  simp [toBE, Nat.mod_eq_of_lt h]

theorem get_u8_cons (x : Nat) (rest : List Nat) :
    get_u8 (x :: rest) = (x, rest) := rfl

theorem get_u32_toBE (n : Nat) (h : n < 2 ^ 32) (rest : List Nat) :
    get_u32 (toBE 4 n ++ rest) = (n, rest) := by
  have h' : n < 256 ^ 4 := by norm_num at h ⊢; omega
  unfold get_u32
  rw [List.take_left' (by simp), List.drop_left' (by simp), fromBE_toBE 4 n h']

theorem get_u64_toBE (n : Nat) (h : n < 2 ^ 64) (rest : List Nat) :
    get_u64 (toBE 8 n ++ rest) = (n, rest) := by
  have h' : n < 256 ^ 8 := by norm_num at h ⊢; omega
  unfold get_u64
  rw [List.take_left' (by simp), List.drop_left' (by simp), fromBE_toBE 8 n h']

theorem relTag_unpack_pack (t : RelTag) (h : t.wf) (rest : List Nat) :
    RelTag.unpack (t.pack ++ rest) = (t, rest) := by
  obtain ⟨h1, h2, h3, h4⟩ := h
  unfold RelTag.pack
  rw [toBE_one t.forknum (by norm_num at h1 ⊢; omega)]
  simp only [List.append_assoc, List.cons_append, List.nil_append]
  unfold RelTag.unpack
  rw [get_u8_cons]
  simp only
  rw [get_u32_toBE _ h2, get_u32_toBE _ h3, get_u32_toBE _ h4]

theorem bufferTag_unpack_pack (t : BufferTag) (h : t.wf) (rest : List Nat) :
    BufferTag.unpack (t.pack ++ rest) = (t, rest) := by
  obtain ⟨h1, h2⟩ := h
  unfold BufferTag.pack
  rw [List.append_assoc]
  unfold BufferTag.unpack
  rw [relTag_unpack_pack t.rel h1]
  simp only
  rw [get_u32_toBE _ h2]

theorem repoKey_unpack_pack (k : RepositoryKey) (h : k.wf) (rest : List Nat) :
    RepositoryKey.unpack (k.pack ++ rest) = (k, rest) := by
  obtain ⟨h1, h2⟩ := h
  unfold RepositoryKey.pack
  rw [List.append_assoc]
  unfold RepositoryKey.unpack
  rw [bufferTag_unpack_pack k.tag h1]
  simp only
  rw [get_u64_toBE _ h2]

theorem walRecord_unpack_pack (r : WALRecord) (h : r.wf) (rest : List Nat) :
    WALRecord.unpack (r.pack ++ rest) = (r, rest) := by
  obtain ⟨h1, h2, h3, _⟩ := h
  unfold WALRecord.pack
  simp only [List.append_assoc, List.cons_append, List.nil_append]
  unfold WALRecord.unpack
  rw [get_u64_toBE _ h1]
  simp only
  rw [get_u8_cons]
  simp only
  rw [get_u32_toBE _ h2]
  simp only
  rw [Nat.mod_eq_of_lt h3, get_u32_toBE _ h3]
  simp only
  rw [List.take_left' rfl, List.drop_left' rfl]
  have hwi : ((if r.will_init then 1 else 0 : Nat) != 0) = r.will_init := by
    cases r.will_init <;> simp
  rw [hwi]

/-- A well-formed encoding of a `RelTag`: 13 bytes, each a byte value. -/
def RelTag.wfBytes (b : List Nat) : Prop :=
  b.length = 13 ∧ ∀ x ∈ b, x < 256

/-- A well-formed encoding of a `BufferTag`: 17 bytes, each a byte value. -/
def BufferTag.wfBytes (b : List Nat) : Prop :=
  b.length = 17 ∧ ∀ x ∈ b, x < 256

/-- A well-formed encoding of a `RepositoryKey`: 25 bytes, each a byte value. -/
def RepositoryKey.wfBytes (b : List Nat) : Prop :=
  b.length = 25 ∧ ∀ x ∈ b, x < 256

/-- A well-formed encoding of a `WALRecord`: a 17-byte header whose
`will_init` byte is 0 or 1 and whose length field equals the length of the
payload that follows, then the payload. -/
def WALRecord.wfBytes (b : List Nat) : Prop :=
  17 ≤ b.length ∧ (∀ x ∈ b, x < 256) ∧
    ((b.drop 8).headD 0 = 0 ∨ (b.drop 8).headD 0 = 1) ∧
    fromBE ((b.drop 13).take 4) = b.length - 17

instance (b : List Nat) : Decidable (RelTag.wfBytes b) := by
  unfold RelTag.wfBytes; infer_instance

instance (b : List Nat) : Decidable (BufferTag.wfBytes b) := by
  unfold BufferTag.wfBytes; infer_instance

instance (b : List Nat) : Decidable (RepositoryKey.wfBytes b) := by
  unfold RepositoryKey.wfBytes; infer_instance

instance (b : List Nat) : Decidable (WALRecord.wfBytes b) := by
  unfold WALRecord.wfBytes; infer_instance

theorem toBE_take (b : List Nat) (w : Nat) (hw : w ≤ b.length)
    (hb : ∀ x ∈ b, x < 256) : toBE w (fromBE (b.take w)) = b.take w := by
  have hlen : (b.take w).length = w := by simp [List.length_take]; omega
  have := toBE_fromBE (b.take w) (fun x hx => hb x (List.mem_of_mem_take hx))
  rwa [hlen] at this

theorem fromBE_lt (bs : List Nat) (h : ∀ x ∈ bs, x < 256) :
    fromBE bs < 256 ^ bs.length := by
  induction bs using List.reverseRecOn with
  | nil => simp [fromBE]
  | append_singleton bs b ih =>
    have hb : b < 256 := h b (by simp)
    have hbs := ih (fun x hx => h x (by simp [hx]))
    rw [fromBE_append]
    simp only [List.length_append, List.length_singleton, fromBE, List.foldl_cons,
      List.foldl_nil]
    have : fromBE bs * 256 + b < 256 ^ bs.length * 256 := by
      unfold fromBE at hbs ⊢
      nlinarith
    calc List.foldl (fun acc b => acc * 256 + b) 0 bs * 256 ^ [b].length +
          List.foldl (fun acc b => acc * 256 + b) (0 * 256 + b) [] = fromBE bs * 256 + b := by
          simp [fromBE]
      _ < 256 ^ bs.length * 256 := this
      _ = 256 ^ (bs.length + 1) := by ring

/-- `RelTag::unpack` written as explicit slices of the input buffer. -/
theorem relTag_unpack_eq (b : List Nat) :
    RelTag.unpack b = (⟨b.headD 0, fromBE (b.tail.take 4),
      fromBE ((b.tail.drop 4).take 4), fromBE (((b.tail.drop 4).drop 4).take 4)⟩,
      ((b.tail.drop 4).drop 4).drop 4) := rfl

theorem relTag_pack_unpack_parts (b : List Nat) (hlen : 13 ≤ b.length)
    (hb : ∀ x ∈ b, x < 256) :
    (RelTag.unpack b).1.pack = b.take 13 ∧ (RelTag.unpack b).2 = b.drop 13 := by
  obtain ⟨x, b', rfl⟩ : ∃ x b', b = x :: b' := by
    cases b with
    | nil => simp at hlen
    | cons x b' => exact ⟨x, b', rfl⟩
  have hx : x < 256 := hb x (by simp)
  have hb' : ∀ y ∈ b', y < 256 := fun y hy => hb y (by simp [hy])
  have hlen' : 12 ≤ b'.length := by simp at hlen; omega
  rw [relTag_unpack_eq]
  simp only [List.headD_cons, List.tail_cons]
  unfold RelTag.pack
  simp only
  rw [toBE_one x hx]
  rw [toBE_take b' 4 (by omega) hb']
  rw [toBE_take (b'.drop 4) 4 (by simp; omega) (fun y hy => hb' y (List.mem_of_mem_drop hy))]
  rw [toBE_take ((b'.drop 4).drop 4) 4 (by simp; omega)
    (fun y hy => hb' y (List.mem_of_mem_drop (List.mem_of_mem_drop hy)))]
  have hstep : ∀ (l : List Nat) (m k : Nat), l.take m ++ (l.drop m).take k = l.take (m + k) :=
    fun l m k => (List.take_add l m k).symm
  have e0 : (b'.drop 4).drop 4 = b'.drop 8 := by
    rw [List.drop_drop]
  constructor
  · rw [e0]
    have eR : (x :: b').take 13 = x :: b'.take 12 := rfl
    rw [eR]
    simp only [List.append_assoc, List.singleton_append, List.cons.injEq, true_and,
      List.nil_append, List.cons_append]
    rw [← List.append_assoc, hstep b' 4 4]
    have e48 : (4 + 4 : Nat) = 8 := rfl
    rw [e48, hstep b' 8 4]
  · rw [e0]
    simp [List.drop_drop]

/-- `BufferTag::unpack` in terms of `RelTag::unpack`. -/
theorem bufferTag_unpack_eq (b : List Nat) :
    BufferTag.unpack b = (⟨(RelTag.unpack b).1, fromBE ((RelTag.unpack b).2.take 4)⟩,
      (RelTag.unpack b).2.drop 4) := rfl

theorem bufferTag_pack_unpack_parts (b : List Nat) (hlen : 17 ≤ b.length)
    (hb : ∀ x ∈ b, x < 256) :
    (BufferTag.unpack b).1.pack = b.take 17 ∧ (BufferTag.unpack b).2 = b.drop 17 := by
  obtain ⟨hp, hd⟩ := relTag_pack_unpack_parts b (by omega) hb
  rw [bufferTag_unpack_eq]
  unfold BufferTag.pack
  simp only [hp, hd]
  rw [toBE_take (b.drop 13) 4 (by simp; omega) (fun y hy => hb y (List.mem_of_mem_drop hy))]
  constructor
  · rw [← List.take_add]
  · simp [List.drop_drop]

/-- `RepositoryKey::unpack` in terms of `BufferTag::unpack`. -/
theorem repoKey_unpack_eq (b : List Nat) :
    RepositoryKey.unpack b = (⟨(BufferTag.unpack b).1, fromBE ((BufferTag.unpack b).2.take 8)⟩,
      (BufferTag.unpack b).2.drop 8) := rfl

theorem repoKey_pack_unpack_parts (b : List Nat) (hlen : 25 ≤ b.length)
    (hb : ∀ x ∈ b, x < 256) :
    (RepositoryKey.unpack b).1.pack = b.take 25 ∧ (RepositoryKey.unpack b).2 = b.drop 25 := by
  obtain ⟨hp, hd⟩ := bufferTag_pack_unpack_parts b (by omega) hb
  rw [repoKey_unpack_eq]
  unfold RepositoryKey.pack
  simp only [hp, hd]
  rw [toBE_take (b.drop 17) 8 (by simp; omega) (fun y hy => hb y (List.mem_of_mem_drop hy))]
  constructor
  · rw [← List.take_add]
  · simp [List.drop_drop]

theorem relTag_pack_unpack (b : List Nat) (h : RelTag.wfBytes b) :
    (RelTag.unpack b).1.pack = b ∧ (RelTag.unpack b).2 = [] := by
  obtain ⟨hlen, hb⟩ := h
  obtain ⟨hp, hd⟩ := relTag_pack_unpack_parts b (by omega) hb
  refine ⟨?_, ?_⟩
  · rw [hp, List.take_of_length_le (by omega)]
  · rw [hd, List.drop_eq_nil_of_le (by omega)]

theorem bufferTag_pack_unpack (b : List Nat) (h : BufferTag.wfBytes b) :
    (BufferTag.unpack b).1.pack = b ∧ (BufferTag.unpack b).2 = [] := by
  obtain ⟨hlen, hb⟩ := h
  obtain ⟨hp, hd⟩ := bufferTag_pack_unpack_parts b (by omega) hb
  refine ⟨?_, ?_⟩
  · rw [hp, List.take_of_length_le (by omega)]
  · rw [hd, List.drop_eq_nil_of_le (by omega)]

theorem repoKey_pack_unpack (b : List Nat) (h : RepositoryKey.wfBytes b) :
    (RepositoryKey.unpack b).1.pack = b ∧ (RepositoryKey.unpack b).2 = [] := by
  obtain ⟨hlen, hb⟩ := h
  obtain ⟨hp, hd⟩ := repoKey_pack_unpack_parts b (by omega) hb
  refine ⟨?_, ?_⟩
  · rw [hp, List.take_of_length_le (by omega)]
  · rw [hd, List.drop_eq_nil_of_le (by omega)]

/-- `WALRecord::unpack` written as explicit slices of the input buffer. -/
theorem walRecord_unpack_eq (b : List Nat) :
    WALRecord.unpack b = (⟨fromBE (b.take 8), ((b.drop 8).headD 0) != 0,
      (((b.drop 8).tail.drop 4).drop 4).take (fromBE (((b.drop 8).tail.drop 4).take 4)),
      fromBE ((b.drop 8).tail.take 4)⟩,
      (((b.drop 8).tail.drop 4).drop 4).drop (fromBE (((b.drop 8).tail.drop 4).take 4))) := rfl

theorem walRecord_pack_unpack (b : List Nat) (h : WALRecord.wfBytes b) :
    (WALRecord.unpack b).1.pack = b ∧ (WALRecord.unpack b).2 = [] := by
  obtain ⟨hlen, hb, hwi, hlenfield⟩ := h
  rw [walRecord_unpack_eq]
  have htail : (b.drop 8).tail = b.drop 9 := by rw [List.tail_drop]
  have hd13 : (b.drop 9).drop 4 = b.drop 13 := by rw [List.drop_drop]
  have hd17 : (b.drop 13).drop 4 = b.drop 17 := by rw [List.drop_drop]
  have htk : (b.drop 17).take (b.length - 17) = b.drop 17 :=
    List.take_of_length_le (by simp)
  have hrest : (b.drop 17).length = b.length - 17 := by simp
  have hlt : b.length - 17 < 2 ^ 32 := by
    have hfl := fromBE_lt (((b.drop 13)).take 4) (fun y hy =>
      hb y (List.mem_of_mem_drop (List.mem_of_mem_take hy)))
    rw [hlenfield] at hfl
    have h4 : ((b.drop 13).take 4).length ≤ 4 := by simp
    have hfin : b.length - 17 < 256 ^ 4 := by
      calc b.length - 17 < 256 ^ ((b.drop 13).take 4).length := hfl
        _ ≤ 256 ^ 4 := Nat.pow_le_pow_right (by norm_num) h4
    norm_num at hfin ⊢
    omega
  constructor
  · unfold WALRecord.pack
    simp only [htail, hd13, hd17, hlenfield, htk]
    rw [hrest, Nat.mod_eq_of_lt hlt]
    have hlen4 : ((b.drop 13).take 4).length = 4 := by simp; omega
    have hbe1 : toBE 8 (fromBE (b.take 8)) = b.take 8 := toBE_take b 8 (by omega) hb
    have hbe2 : toBE 4 (fromBE ((b.drop 9).take 4)) = (b.drop 9).take 4 :=
      toBE_take (b.drop 9) 4 (by simp; omega) (fun y hy => hb y (List.mem_of_mem_drop hy))
    have hbe3 : toBE 4 (b.length - 17) = (b.drop 13).take 4 := by
      have hh := toBE_fromBE ((b.drop 13).take 4) (fun y hy =>
        hb y (List.mem_of_mem_drop (List.mem_of_mem_take hy)))
      rw [hlen4, hlenfield] at hh
      exact hh
    rw [hbe1, hbe2, hbe3]
    have hwibyte : [if (((b.drop 8).headD 0) != 0) = true then 1 else 0] = [(b.drop 8).headD 0] := by
      rcases hwi with hwi | hwi <;> rw [hwi] <;> rfl
    rw [hwibyte]
    have hsingle : [(b.drop 8).headD 0] = (b.drop 8).take 1 := by
      have h8 : 8 < b.length := by omega
      cases hdd : b.drop 8 with
      | nil =>
        have hld := List.length_drop 8 b
        rw [hdd] at hld
        simp at hld
        omega
      | cons y ys => simp
    rw [hsingle]
    have s1 : b.take 8 ++ (b.drop 8).take 1 = b.take 9 := by rw [← List.take_add]
    have s2 : b.take 9 ++ (b.drop 9).take 4 = b.take 13 := by rw [← List.take_add]
    have s3 : b.take 13 ++ (b.drop 13).take 4 = b.take 17 := by rw [← List.take_add]
    rw [s1, s2, s3, List.take_append_drop]
  · simp only [htail, hd13, hd17, hlenfield]
    exact List.drop_eq_nil_of_le (by simp)

/-- The strict lexicographic order on the tuple
`(forknum, spcnode, dbnode, relnode)`, following the spec's tuple order
(also the derived `Ord` field order of the Rust struct). -/
def RelTag.tupleLtb (a b : RelTag) : Bool :=
  if a.forknum ≠ b.forknum then decide (a.forknum < b.forknum)
  else if a.spcnode ≠ b.spcnode then decide (a.spcnode < b.spcnode)
  else if a.dbnode ≠ b.dbnode then decide (a.dbnode < b.dbnode)
  else decide (a.relnode < b.relnode)

/-- The strict lexicographic order on the tuple
`(forknum, spcnode, dbnode, relnode, blknum, lsn)`, following the
spec's tuple order on repository keys. -/
def RepositoryKey.tupleLtb (a b : RepositoryKey) : Bool :=
  if a.tag.rel ≠ b.tag.rel then RelTag.tupleLtb a.tag.rel b.tag.rel
  else if a.tag.blknum ≠ b.tag.blknum then decide (a.tag.blknum < b.tag.blknum)
  else decide (a.lsn < b.lsn)

theorem toBE_eq {w a b : Nat} (ha : a < 256 ^ w) (hb : b < 256 ^ w) :
    decide (toBE w a = toBE w b) = decide (a = b) :=
  decide_eq_decide.mpr ⟨fun h => toBE_inj ha hb h, fun h => by rw [h]⟩

theorem decide_append_eq {as bs cs ds : List Nat} (h : as.length = bs.length) :
    decide (as ++ cs = bs ++ ds) = (decide (as = bs) && decide (cs = ds)) := by
  by_cases h1 : as = bs
  · subst h1
    by_cases h2 : cs = ds
    · simp [h2]
    · simp [h2]
  · have hne : ¬ (as ++ cs = bs ++ ds) := fun hh => h1 (List.append_inj hh h).1
    simp [h1, hne]

theorem relTag_pack_lex (t1 t2 : RelTag) (h1 : t1.wf) (h2 : t2.wf) :
    lexLtb t1.pack t2.pack = RelTag.tupleLtb t1 t2 := by
  obtain ⟨a1, b1, c1, d1⟩ := h1
  obtain ⟨a2, b2, c2, d2⟩ := h2
  have a1' : t1.forknum < 256 ^ 1 := by norm_num at a1 ⊢; omega
  have a2' : t2.forknum < 256 ^ 1 := by norm_num at a2 ⊢; omega
  have b1' : t1.spcnode < 256 ^ 4 := by norm_num at b1 ⊢; omega
  have b2' : t2.spcnode < 256 ^ 4 := by norm_num at b2 ⊢; omega
  have c1' : t1.dbnode < 256 ^ 4 := by norm_num at c1 ⊢; omega
  have c2' : t2.dbnode < 256 ^ 4 := by norm_num at c2 ⊢; omega
  have d1' : t1.relnode < 256 ^ 4 := by norm_num at d1 ⊢; omega
  have d2' : t2.relnode < 256 ^ 4 := by norm_num at d2 ⊢; omega
  unfold RelTag.pack
  rw [lexLtb_append (toBE 4 t1.relnode) (toBE 4 t2.relnode) (by simp)]
  rw [lexLtb_append (toBE 4 t1.dbnode) (toBE 4 t2.dbnode) (by simp)]
  rw [lexLtb_append (toBE 4 t1.spcnode) (toBE 4 t2.spcnode) (by simp)]
  rw [decide_append_eq (by simp), decide_append_eq (by simp), decide_append_eq (by simp)]
  rw [lexLtb_toBE a1' a2', lexLtb_toBE b1' b2', lexLtb_toBE c1' c2', lexLtb_toBE d1' d2']
  rw [toBE_eq a1' a2', toBE_eq b1' b2', toBE_eq c1' c2']
  unfold RelTag.tupleLtb
  by_cases hf : t1.forknum = t2.forknum
  · rw [hf]
    by_cases hs : t1.spcnode = t2.spcnode
    · rw [hs]
      by_cases hd : t1.dbnode = t2.dbnode
      · rw [hd]
        simp
      · simp [hd]
    · simp [hs]
  · have hnlt : ¬ (t1.forknum = t2.forknum) := hf
    simp [hnlt]

theorem RelTag.pack_inj (t1 t2 : RelTag) (h1 : t1.wf) (h2 : t2.wf)
    (h : t1.pack = t2.pack) : t1 = t2 := by
  have e1 := relTag_unpack_pack t1 h1 []
  have e2 := relTag_unpack_pack t2 h2 []
  rw [h] at e1
  have := e1.symm.trans e2
  simpa using this

theorem RelTag.pack_eq_decide (t1 t2 : RelTag) (h1 : t1.wf) (h2 : t2.wf) :
    decide (t1.pack = t2.pack) = decide (t1 = t2) :=
  decide_eq_decide.mpr ⟨fun h => RelTag.pack_inj t1 t2 h1 h2 h, fun h => by rw [h]⟩

theorem RelTag.tupleLtb_irrefl (t : RelTag) : RelTag.tupleLtb t t = false := by
  simp [RelTag.tupleLtb]

theorem repoKey_pack_lex (k1 k2 : RepositoryKey) (h1 : k1.wf) (h2 : k2.wf) :
    lexLtb k1.pack k2.pack = RepositoryKey.tupleLtb k1 k2 := by
  obtain ⟨⟨hr1, hblk1⟩, hlsn1⟩ := h1
  obtain ⟨⟨hr2, hblk2⟩, hlsn2⟩ := h2
  have hblk1' : k1.tag.blknum < 256 ^ 4 := by norm_num at hblk1 ⊢; omega
  have hblk2' : k2.tag.blknum < 256 ^ 4 := by norm_num at hblk2 ⊢; omega
  have hlsn1' : k1.lsn < 256 ^ 8 := by norm_num at hlsn1 ⊢; omega
  have hlsn2' : k2.lsn < 256 ^ 8 := by norm_num at hlsn2 ⊢; omega
  unfold RepositoryKey.pack BufferTag.pack
  rw [lexLtb_append (toBE 8 k1.lsn) (toBE 8 k2.lsn) (by simp [RelTag.pack])]
  rw [lexLtb_append (toBE 4 k1.tag.blknum) (toBE 4 k2.tag.blknum) (by simp [RelTag.pack])]
  rw [decide_append_eq (by simp [RelTag.pack])]
  rw [lexLtb_toBE hblk1' hblk2', lexLtb_toBE hlsn1' hlsn2']
  rw [toBE_eq hblk1' hblk2']
  rw [relTag_pack_lex _ _ hr1 hr2, RelTag.pack_eq_decide _ _ hr1 hr2]
  unfold RepositoryKey.tupleLtb
  by_cases hrel : k1.tag.rel = k2.tag.rel
  · rw [hrel]
    by_cases hblk : k1.tag.blknum = k2.tag.blknum
    · rw [hblk]
      simp [RelTag.tupleLtb_irrefl]
    · simp [hblk, RelTag.tupleLtb_irrefl]
  · simp [hrel]

/-- C1: For all `RepositoryKey`s `k1` and `k2` (fields within their machine
integer widths), the lexicographic byte order of the encodings
`RepositoryKey::pack(k1)` and `RepositoryKey::pack(k2)` equals the
lexicographic tuple order on `(forknum, spcnode, dbnode, relnode, blknum,
lsn)`: `pack(k1) < pack(k2)` bytewise if and only if the tuple of `k1` is
less than the tuple of `k2`. -/
theorem C1_key_byte_order_eq_tuple_order (k1 k2 : RepositoryKey)
    (h1 : k1.wf) (h2 : k2.wf) :
    lexLtb k1.pack k2.pack = true ↔ RepositoryKey.tupleLtb k1 k2 = true := by
  rw [repoKey_pack_lex k1 k2 h1 h2]

/-- Witness for C1 at concrete keys differing only in `lsn`. -/
theorem C1_witness :
    RepositoryKey.wf ⟨⟨⟨0, 1, 2, 3⟩, 4⟩, 5⟩ ∧
      RepositoryKey.wf ⟨⟨⟨0, 1, 2, 3⟩, 4⟩, 9⟩ ∧
      (lexLtb (RepositoryKey.pack ⟨⟨⟨0, 1, 2, 3⟩, 4⟩, 5⟩)
          (RepositoryKey.pack ⟨⟨⟨0, 1, 2, 3⟩, 4⟩, 9⟩) = true ↔
        RepositoryKey.tupleLtb ⟨⟨⟨0, 1, 2, 3⟩, 4⟩, 5⟩ ⟨⟨⟨0, 1, 2, 3⟩, 4⟩, 9⟩ = true) :=
  ⟨by decide, by decide,
    C1_key_byte_order_eq_tuple_order ⟨⟨⟨0, 1, 2, 3⟩, 4⟩, 5⟩ ⟨⟨⟨0, 1, 2, 3⟩, 4⟩, 9⟩
      (by decide) (by decide)⟩

/-- C2: encoding then decoding is the identity for every well-formed key
and value (`RepositoryKey`, `RelTag`, `BufferTag`, `WALRecord`), and
decoding then encoding is the identity on every well-formed byte string. -/
theorem C2_codec_round_trip :
    (∀ t : RelTag, t.wf → RelTag.unpack t.pack = (t, [])) ∧
    (∀ t : BufferTag, t.wf → BufferTag.unpack t.pack = (t, [])) ∧
    (∀ k : RepositoryKey, k.wf → RepositoryKey.unpack k.pack = (k, [])) ∧
    (∀ r : WALRecord, r.wf → WALRecord.unpack r.pack = (r, [])) ∧
    (∀ b : List Nat, RelTag.wfBytes b → (RelTag.unpack b).1.pack = b) ∧
    (∀ b : List Nat, BufferTag.wfBytes b → (BufferTag.unpack b).1.pack = b) ∧
    (∀ b : List Nat, RepositoryKey.wfBytes b → (RepositoryKey.unpack b).1.pack = b) ∧
    (∀ b : List Nat, WALRecord.wfBytes b → (WALRecord.unpack b).1.pack = b) := by
  refine ⟨?_, ?_, ?_, ?_, ?_, ?_, ?_, ?_⟩
  · intro t h
    have := relTag_unpack_pack t h []
    rwa [List.append_nil] at this
  · intro t h
    have := bufferTag_unpack_pack t h []
    rwa [List.append_nil] at this
  · intro k h
    have := repoKey_unpack_pack k h []
    rwa [List.append_nil] at this
  · intro r h
    have := walRecord_unpack_pack r h []
    rwa [List.append_nil] at this
  · exact fun b h => (relTag_pack_unpack b h).1
  · exact fun b h => (bufferTag_pack_unpack b h).1
  · exact fun b h => (repoKey_pack_unpack b h).1
  · exact fun b h => (walRecord_pack_unpack b h).1

/-- Witness for C2 at a concrete key, record and byte strings. -/
theorem C2_witness :
    RelTag.unpack (RelTag.pack ⟨0, 1, 2, 3⟩) = (⟨0, 1, 2, 3⟩, []) ∧
      BufferTag.unpack (BufferTag.pack ⟨⟨0, 1, 2, 3⟩, 4⟩) = (⟨⟨0, 1, 2, 3⟩, 4⟩, []) ∧
      RepositoryKey.unpack (RepositoryKey.pack ⟨⟨⟨0, 1, 2, 3⟩, 4⟩, 5⟩) =
        (⟨⟨⟨0, 1, 2, 3⟩, 4⟩, 5⟩, []) ∧
      WALRecord.unpack (WALRecord.pack ⟨6, true, [7, 8], 2⟩) = (⟨6, true, [7, 8], 2⟩, []) ∧
      (RelTag.unpack [0, 0, 0, 0, 1, 0, 0, 0, 2, 0, 0, 0, 3]).1.pack =
        [0, 0, 0, 0, 1, 0, 0, 0, 2, 0, 0, 0, 3] ∧
      (BufferTag.unpack [0, 0, 0, 0, 1, 0, 0, 0, 2, 0, 0, 0, 3, 0, 0, 0, 4]).1.pack =
        [0, 0, 0, 0, 1, 0, 0, 0, 2, 0, 0, 0, 3, 0, 0, 0, 4] ∧
      (RepositoryKey.unpack
          [0, 0, 0, 0, 1, 0, 0, 0, 2, 0, 0, 0, 3, 0, 0, 0, 4, 0, 0, 0, 0, 0, 0, 0, 5]).1.pack =
        [0, 0, 0, 0, 1, 0, 0, 0, 2, 0, 0, 0, 3, 0, 0, 0, 4, 0, 0, 0, 0, 0, 0, 0, 5] ∧
      (WALRecord.unpack
          [0, 0, 0, 0, 0, 0, 0, 6, 1, 0, 0, 0, 2, 0, 0, 0, 2, 7, 8]).1.pack =
        [0, 0, 0, 0, 0, 0, 0, 6, 1, 0, 0, 0, 2, 0, 0, 0, 2, 7, 8] :=
  ⟨C2_codec_round_trip.1 ⟨0, 1, 2, 3⟩ (by decide),
    C2_codec_round_trip.2.1 ⟨⟨0, 1, 2, 3⟩, 4⟩ (by decide),
    C2_codec_round_trip.2.2.1 ⟨⟨⟨0, 1, 2, 3⟩, 4⟩, 5⟩ (by decide),
    C2_codec_round_trip.2.2.2.1 ⟨6, true, [7, 8], 2⟩ (by decide),
    C2_codec_round_trip.2.2.2.2.1 _ (by decide),
    C2_codec_round_trip.2.2.2.2.2.1 _ (by decide),
    C2_codec_round_trip.2.2.2.2.2.2.1 _ (by decide),
    C2_codec_round_trip.2.2.2.2.2.2.2 _ (by decide)⟩

/-- The key order written out over the six numeric fields. -/
theorem key_ltb_iff (a b : RepositoryKey) :
    RepositoryKey.tupleLtb a b = true ↔
      (a.tag.rel.forknum < b.tag.rel.forknum ∨ (a.tag.rel.forknum = b.tag.rel.forknum ∧
        (a.tag.rel.spcnode < b.tag.rel.spcnode ∨ (a.tag.rel.spcnode = b.tag.rel.spcnode ∧
          (a.tag.rel.dbnode < b.tag.rel.dbnode ∨ (a.tag.rel.dbnode = b.tag.rel.dbnode ∧
            (a.tag.rel.relnode < b.tag.rel.relnode ∨ (a.tag.rel.relnode = b.tag.rel.relnode ∧
              (a.tag.blknum < b.tag.blknum ∨ (a.tag.blknum = b.tag.blknum ∧
                a.lsn < b.lsn)))))))))) := by
  obtain ⟨⟨⟨f1, s1, d1, r1⟩, k1⟩, l1⟩ := a
  obtain ⟨⟨⟨f2, s2, d2, r2⟩, k2⟩, l2⟩ := b
  simp only [RepositoryKey.tupleLtb, RelTag.tupleLtb, RelTag.mk.injEq, ne_eq]
  split_ifs <;> simp only [decide_eq_true_eq] <;> constructor <;> intro hh <;> omega

theorem key_ltb_irrefl (a : RepositoryKey) : RepositoryKey.tupleLtb a a = false := by
  by_contra h
  have hh : RepositoryKey.tupleLtb a a = true := by
    revert h
    cases RepositoryKey.tupleLtb a a <;> simp
  rw [key_ltb_iff] at hh
  omega

theorem key_ltb_trans {a b c : RepositoryKey}
    (h1 : RepositoryKey.tupleLtb a b = true)
    (h2 : RepositoryKey.tupleLtb b c = true) :
    RepositoryKey.tupleLtb a c = true := by
  rw [key_ltb_iff] at h1 h2 ⊢
  omega

theorem key_eq_of_not_ltb {a b : RepositoryKey}
    (h1 : ¬ RepositoryKey.tupleLtb a b = true)
    (h2 : ¬ RepositoryKey.tupleLtb b a = true) : a = b := by
  rw [key_ltb_iff] at h1 h2
  obtain ⟨⟨⟨f1, s1, d1, r1⟩, k1⟩, l1⟩ := a
  obtain ⟨⟨⟨f2, s2, d2, r2⟩, k2⟩, l2⟩ := b
  simp only at h1 h2
  have heq : f1 = f2 ∧ s1 = s2 ∧ d1 = d2 ∧ r1 = r2 ∧ k1 = k2 ∧ l1 = l2 := by omega
  obtain ⟨rfl, rfl, rfl, rfl, rfl, rfl⟩ := heq
  rfl

theorem key_ltb_total (a b : RepositoryKey) :
    RepositoryKey.tupleLtb a b = true ∨ a = b ∨ RepositoryKey.tupleLtb b a = true := by
  by_cases h1 : RepositoryKey.tupleLtb a b = true
  · exact Or.inl h1
  · by_cases h2 : RepositoryKey.tupleLtb b a = true
    · exact Or.inr (Or.inr h2)
    · exact Or.inr (Or.inl (key_eq_of_not_ltb h1 h2))

/-- A store entry: a repository key and the raw value bytes stored at it. -/
abbrev Entry := RepositoryKey × List Nat

/-- The ordered store is modelled as a list of entries in strictly
increasing key order (the ordered KV engine of spec §2.B). -/
def sortedStore (store : List Entry) : Prop :=
  store.Pairwise (fun e1 e2 => RepositoryKey.tupleLtb e1.1 e2.1 = true)

instance (store : List Entry) : Decidable (sortedStore store) := by
  unfold sortedStore
  exact List.instDecidablePairwise store

/-- Modelled from the spec: `iterator().first(key)` "positions at the
first entry ≥ key", and `next()` steps forward.  On the sorted entry
list the entries strictly below `key` form a prefix, so the iterator's
position and subsequent walk is the suffix left after dropping them.
The rocksdb-backed iterator implementation is outside the embedded
sources. -/
def iterFrom (store : List Entry) (key : RepositoryKey) : List Entry :=
  store.dropWhile (fun e => RepositoryKey.tupleLtb e.1 key)

/-- `iterator().first(key)` then `valid() / key() / value()`:
the first entry ≥ `key`, if one exists. -/
def seekFirst (store : List Entry) (key : RepositoryKey) : Option Entry :=
  (iterFrom store key).head?

/-- Modelled from the spec: `iterator().last(key)` "positions at the
last entry ≤ key". -/
def seekLast (store : List Entry) (key : RepositoryKey) : Option Entry :=
  (store.filter (fun e => ! RepositoryKey.tupleLtb key e.1)).getLast?

theorem key_ltb_asymm {a b : RepositoryKey}
    (h : RepositoryKey.tupleLtb a b = true) : RepositoryKey.tupleLtb b a = false := by
  by_contra hh
  have hh' : RepositoryKey.tupleLtb b a = true := by
    revert hh
    cases RepositoryKey.tupleLtb b a <;> simp
  rw [key_ltb_iff] at h hh'
  omega

/-- A key lying between two keys with the same `RelTag` has that `RelTag`. -/
theorem key_rel_sandwich (lo hi x : RepositoryKey)
    (hrel : lo.tag.rel = hi.tag.rel)
    (h1 : RepositoryKey.tupleLtb x lo = false)
    (h2 : RepositoryKey.tupleLtb hi x = false) : x.tag.rel = lo.tag.rel := by
  have n1 : ¬ RepositoryKey.tupleLtb x lo = true := by simp [h1]
  have n2 : ¬ RepositoryKey.tupleLtb hi x = true := by simp [h2]
  rw [key_ltb_iff] at n1 n2
  obtain ⟨⟨⟨fl, sl, dl, rl⟩, kl⟩, ll⟩ := lo
  obtain ⟨⟨⟨fh, sh, dh, rh⟩, kh⟩, lh⟩ := hi
  obtain ⟨⟨⟨fx, sx, dx, rx⟩, kx⟩, lx⟩ := x
  simp only [RelTag.mk.injEq] at hrel ⊢
  simp only at n1 n2
  omega

theorem seekFirst_none {store : List Entry} {key : RepositoryKey}
    (h : seekFirst store key = none) :
    ∀ e ∈ store, RepositoryKey.tupleLtb e.1 key = true := by
  unfold seekFirst iterFrom at h
  rw [List.head?_eq_none_iff] at h
  intro e he
  have := List.dropWhile_eq_nil_iff.mp h
  simpa using this e he

theorem seekFirst_some {store : List Entry} {key : RepositoryKey} {r : Entry}
    (hs : sortedStore store) (h : seekFirst store key = some r) :
    r ∈ store ∧ RepositoryKey.tupleLtb r.1 key = false ∧
      ∀ e ∈ store, RepositoryKey.tupleLtb e.1 key = false →
        r = e ∨ RepositoryKey.tupleLtb r.1 e.1 = true := by
  induction store with
  | nil => simp [seekFirst, iterFrom] at h
  | cons a l ih =>
    rw [sortedStore, List.pairwise_cons] at hs
    obtain ⟨hhead, htail⟩ := hs
    unfold seekFirst iterFrom at h
    rw [List.dropWhile_cons] at h
    by_cases hp : RepositoryKey.tupleLtb a.1 key = true
    · rw [if_pos (by simpa using hp)] at h
      obtain ⟨hmem, hge, hmin⟩ := ih htail h
      refine ⟨List.mem_cons_of_mem a hmem, hge, ?_⟩
      intro e he hek
      rcases List.mem_cons.mp he with rfl | he'
      · rw [hp] at hek
        simp at hek
      · exact hmin e he' hek
    · rw [if_neg (by simpa using hp)] at h
      simp only [List.head?_cons, Option.some.injEq] at h
      subst h
      refine ⟨List.mem_cons_self a l, by simpa using hp, ?_⟩
      intro e he _
      rcases List.mem_cons.mp he with rfl | he'
      · exact Or.inl rfl
      · exact Or.inr (hhead e he')

theorem seekLast_none {store : List Entry} {key : RepositoryKey}
    (h : seekLast store key = none) :
    ∀ e ∈ store, RepositoryKey.tupleLtb key e.1 = true := by
  unfold seekLast at h
  rw [List.getLast?_eq_none_iff] at h
  intro e he
  have := List.filter_eq_nil_iff.mp h e he
  simpa using this

theorem seekLast_some {store : List Entry} {key : RepositoryKey} {r : Entry}
    (hs : sortedStore store) (h : seekLast store key = some r) :
    r ∈ store ∧ RepositoryKey.tupleLtb key r.1 = false ∧
      ∀ e ∈ store, RepositoryKey.tupleLtb key e.1 = false →
        e = r ∨ RepositoryKey.tupleLtb e.1 r.1 = true := by
  induction store using List.reverseRecOn with
  | nil => simp [seekLast] at h
  | append_singleton l a ih =>
    rw [sortedStore, List.pairwise_append] at hs
    obtain ⟨hsl, _, hcross⟩ := hs
    unfold seekLast at h
    rw [List.filter_append] at h
    by_cases hp : RepositoryKey.tupleLtb key a.1 = true
    · have hfa : List.filter (fun e => ! RepositoryKey.tupleLtb key e.1) [a] = [] := by
        simp [List.filter, hp]
      rw [hfa, List.append_nil] at h
      obtain ⟨hmem, hle, hmax⟩ := ih hsl h
      refine ⟨List.mem_append_left _ hmem, hle, ?_⟩
      intro e he hek
      rcases List.mem_append.mp he with he' | he'
      · exact hmax e he' hek
      · rw [List.mem_singleton] at he'
        subst he'
        rw [hp] at hek
        simp at hek
    · have hfa : List.filter (fun e => ! RepositoryKey.tupleLtb key e.1) [a] = [a] := by
        simp [List.filter, hp]
      rw [hfa, List.getLast?_append_cons] at h
      simp only [List.getLast?_singleton, Option.some.injEq] at h
      subst h
      refine ⟨List.mem_append_right _ (List.mem_singleton_self a),
        by simpa using hp, ?_⟩
      intro e he _
      rcases List.mem_append.mp he with he' | he'
      · exact Or.inr (hcross e he' a (List.mem_singleton_self a))
      · rw [List.mem_singleton] at he'
        exact Or.inl he'

/-- Modelled from the spec: Postgres fork numbers and resource-manager
constants used by `repository.rs` (the `postgres_ffi::pg_constants`
crate lies outside the embedded sources; the real fork numbers come
from Postgres, the pseudo-fork numbers are distinct values above the
real ones). -/
def MAIN_FORKNUM : Nat := 0

/-- Modelled from the spec: the free-space-map fork number. -/
def FSM_FORKNUM : Nat := 1

/-- Modelled from the spec: the visibility-map fork number. -/
def VISIBILITYMAP_FORKNUM : Nat := 2

/-- Modelled from the spec: the init fork number. -/
def INIT_FORKNUM : Nat := 3

/-- Modelled from the spec: the pseudo-fork holding per-database
filenode maps. -/
def PG_FILENODEMAP_FORKNUM : Nat := 53

/-- Modelled from the spec: the smgr resource-manager id. -/
def RM_SMGR_ID : Nat := 9

/-- Modelled from the spec: the database resource-manager id. -/
def RM_DBASE_ID : Nat := 10

/-- Modelled from the spec: mask selecting the resource-manager bits of
`xl_info`. -/
def XLR_RMGR_INFO_MASK : Nat := 0xF0

/-- Modelled from the spec: the smgr-truncate record tag. -/
def XLOG_SMGR_TRUNCATE : Nat := 0x20

/-- Modelled from the spec: the database-create record tag. -/
def XLOG_DBASE_CREATE : Nat := 0x00

/-- Modelled from the spec: flag bit marking a heap truncation. -/
def SMGR_TRUNCATE_HEAP : Nat := 1

/-- `Timeline::get_range` default body from `repository.rs`: seek to the
first entry at or after `(rel, blknum 0, lsn 0)`; if that entry still has
relation `rel`, keep its block number, seek to the last entry at or
before `(rel, blknum u32::MAX, lsn 0)` and return
`(first_blknum, last_blknum + 1)`; in every other case return `(0, 0)`.
The query `lsn` is passed to `wait_lsn` only, which the sequential model
assumes to succeed. -/
def get_range (store : List Entry) (rel : RelTag) (lsn : Nat) : Nat × Nat :=
  match seekFirst store ⟨⟨rel, 0⟩, 0⟩ with
  | none => (0, 0)
  | some e =>
    if e.1.tag.rel = rel then
      match seekLast store ⟨⟨rel, 4294967295⟩, 0⟩ with
      | none => (0, 0)
      | some e2 => (e.1.tag.blknum, e2.1.tag.blknum + 1)
    else (0, 0)

theorem key_ltb_blk_le {a b : RepositoryKey} (hrel : a.tag.rel = b.tag.rel)
    (h : RepositoryKey.tupleLtb a b = true) : a.tag.blknum ≤ b.tag.blknum := by
  rw [key_ltb_iff] at h
  have hf := congrArg RelTag.forknum hrel
  have hsp := congrArg RelTag.spcnode hrel
  have hd := congrArg RelTag.dbnode hrel
  have hr := congrArg RelTag.relnode hrel
  omega

/-- C5 (counterexample): `get_range` ignores the query LSN in its seeks:
with a single stored key at LSN 100 and query LSN 10 no stored key has
LSN ≤ 10, so the claim predicts `(0, 0)`, but the code returns `(5, 6)`. -/
theorem C5_counterexample :
    (∀ e ∈ ([(⟨⟨⟨0, 0, 111, 1000⟩, 5⟩, 100⟩, [])] : List Entry),
        ¬ (e.1.tag.rel = ⟨0, 0, 111, 1000⟩ ∧ e.1.lsn ≤ 10)) ∧
      get_range [(⟨⟨⟨0, 0, 111, 1000⟩, 5⟩, 100⟩, [])] ⟨0, 0, 111, 1000⟩ 10 = (5, 6) := by
  constructor
  · decide
  · decide

/-- C5 (amended): for a sorted store in which every key of relation `rel`
has a block number below `u32::MAX`, `get_range(rel, lsn)` returns
`(b_min, b_max + 1)` where `b_min` and `b_max` are the smallest and
largest block numbers among stored keys with prefix `rel` regardless of
their key LSN (the query LSN is used only by `wait_lsn`, assumed to
succeed), and returns `(0, 0)` when no key with prefix `rel` exists. -/
theorem C5_amended_get_range (store : List Entry) (rel : RelTag) (lsn : Nat)
    (hs : sortedStore store)
    (hblk : ∀ e ∈ store, e.1.tag.rel = rel → e.1.tag.blknum < 4294967295) :
    ((¬ ∃ e ∈ store, e.1.tag.rel = rel) → get_range store rel lsn = (0, 0)) ∧
    (∀ bmin bmax : Nat,
      (∃ e ∈ store, e.1.tag.rel = rel ∧ e.1.tag.blknum = bmin) →
      (∀ e ∈ store, e.1.tag.rel = rel → bmin ≤ e.1.tag.blknum) →
      (∃ e ∈ store, e.1.tag.rel = rel ∧ e.1.tag.blknum = bmax) →
      (∀ e ∈ store, e.1.tag.rel = rel → e.1.tag.blknum ≤ bmax) →
      get_range store rel lsn = (bmin, bmax + 1)) := by
  have hstart : ∀ k : RepositoryKey, k.tag.rel = rel →
      RepositoryKey.tupleLtb k ⟨⟨rel, 0⟩, 0⟩ = false := by
    intro k hk
    by_contra hc
    have hc' : RepositoryKey.tupleLtb k ⟨⟨rel, 0⟩, 0⟩ = true := by
      revert hc
      cases RepositoryKey.tupleLtb k ⟨⟨rel, 0⟩, 0⟩ <;> simp
    rw [key_ltb_iff] at hc'
    have hf := congrArg RelTag.forknum hk
    have hsp := congrArg RelTag.spcnode hk
    have hd := congrArg RelTag.dbnode hk
    have hr := congrArg RelTag.relnode hk
    simp only at hc'
    omega
  have htarget : ∀ k : RepositoryKey, k.tag.rel = rel → k.tag.blknum < 4294967295 →
      RepositoryKey.tupleLtb ⟨⟨rel, 4294967295⟩, 0⟩ k = false := by
    intro k hk hkb
    by_contra hc
    have hc' : RepositoryKey.tupleLtb ⟨⟨rel, 4294967295⟩, 0⟩ k = true := by
      revert hc
      cases RepositoryKey.tupleLtb ⟨⟨rel, 4294967295⟩, 0⟩ k <;> simp
    rw [key_ltb_iff] at hc'
    have hf := congrArg RelTag.forknum hk
    have hsp := congrArg RelTag.spcnode hk
    have hd := congrArg RelTag.dbnode hk
    have hr := congrArg RelTag.relnode hk
    simp only at hc'
    omega
  constructor
  · intro hnone
    unfold get_range
    cases hsf : seekFirst store ⟨⟨rel, 0⟩, 0⟩ with
    | none => rfl
    | some r =>
      obtain ⟨hmem, _, _⟩ := seekFirst_some hs hsf
      by_cases hr : r.1.tag.rel = rel
      · exact absurd ⟨r, hmem, hr⟩ hnone
      · simp only [if_neg hr]
  · intro bmin bmax hex_min hall_min hex_max hall_max
    obtain ⟨emin, hm_min, hr_min, hb_min⟩ := hex_min
    obtain ⟨emax, hm_max, hr_max, hb_max⟩ := hex_max
    unfold get_range
    cases hsf : seekFirst store ⟨⟨rel, 0⟩, 0⟩ with
    | none =>
      exfalso
      have hcon := seekFirst_none hsf emin hm_min
      rw [hstart emin.1 hr_min] at hcon
      simp at hcon
    | some r =>
      obtain ⟨hmem, hge, hminimal⟩ := seekFirst_some hs hsf
      have hrle : r = emin ∨ RepositoryKey.tupleLtb r.1 emin.1 = true :=
        hminimal emin hm_min (hstart emin.1 hr_min)
      have h2 : RepositoryKey.tupleLtb emin.1 r.1 = false := by
        rcases hrle with rfl | hlt
        · exact key_ltb_irrefl r.1
        · exact key_ltb_asymm hlt
      have hrrel : r.1.tag.rel = rel :=
        key_rel_sandwich ⟨⟨rel, 0⟩, 0⟩ emin.1 r.1 hr_min.symm hge h2
      have hrblk : r.1.tag.blknum = bmin := by
        have hge_b : bmin ≤ r.1.tag.blknum := hall_min r hmem hrrel
        have hle_b : r.1.tag.blknum ≤ emin.1.tag.blknum := by
          rcases hrle with rfl | hlt
          · exact le_refl _
          · exact key_ltb_blk_le (hrrel.trans hr_min.symm) hlt
        omega
      simp only [if_pos hrrel]
      cases hsl : seekLast store ⟨⟨rel, 4294967295⟩, 0⟩ with
      | none =>
        exfalso
        have hcon := seekLast_none hsl emax hm_max
        rw [htarget emax.1 hr_max (hblk emax hm_max hr_max)] at hcon
        simp at hcon
      | some r2 =>
        obtain ⟨hmem2, hle2, hmaximal⟩ := seekLast_some hs hsl
        have hr2e : emax = r2 ∨ RepositoryKey.tupleLtb emax.1 r2.1 = true :=
          hmaximal emax hm_max (htarget emax.1 hr_max (hblk emax hm_max hr_max))
        have h2' : RepositoryKey.tupleLtb r2.1 emax.1 = false := by
          rcases hr2e with rfl | hlt
          · exact key_ltb_irrefl _
          · exact key_ltb_asymm hlt
        have hr2rel : r2.1.tag.rel = rel := by
          have := key_rel_sandwich emax.1 ⟨⟨rel, 4294967295⟩, 0⟩ r2.1
            hr_max h2' hle2
          exact this.trans hr_max
        have hr2blk : r2.1.tag.blknum = bmax := by
          have hle_b : r2.1.tag.blknum ≤ bmax := hall_max r2 hmem2 hr2rel
          have hge_b : emax.1.tag.blknum ≤ r2.1.tag.blknum := by
            rcases hr2e with rfl | hlt
            · exact le_refl _
            · exact key_ltb_blk_le (hr_max.trans hr2rel.symm) hlt
          omega
        simp only
        rw [hrblk, hr2blk]

/-- The `RelTag` order written out over the four numeric fields. -/
theorem rel_ltb_iff (a b : RelTag) :
    RelTag.tupleLtb a b = true ↔
      (a.forknum < b.forknum ∨ (a.forknum = b.forknum ∧
        (a.spcnode < b.spcnode ∨ (a.spcnode = b.spcnode ∧
          (a.dbnode < b.dbnode ∨ (a.dbnode = b.dbnode ∧
            a.relnode < b.relnode)))))) := by
  obtain ⟨f1, s1, d1, r1⟩ := a
  obtain ⟨f2, s2, d2, r2⟩ := b
  simp only [RelTag.tupleLtb, ne_eq]
  split_ifs <;> simp only [decide_eq_true_eq] <;> constructor <;> intro hh <;> omega

theorem rel_ltb_asymm {a b : RelTag} (h : RelTag.tupleLtb a b = true) :
    RelTag.tupleLtb b a = false := by
  by_contra hh
  have hh' : RelTag.tupleLtb b a = true := by
    revert hh
    cases RelTag.tupleLtb b a <;> simp
  rw [rel_ltb_iff] at h hh'
  omega

theorem rel_ltb_trans {a b c : RelTag} (h1 : RelTag.tupleLtb a b = true)
    (h2 : RelTag.tupleLtb b c = true) : RelTag.tupleLtb a c = true := by
  rw [rel_ltb_iff] at h1 h2 ⊢
  omega

theorem rel_eq_of_not_ltb {a b : RelTag}
    (h1 : ¬ RelTag.tupleLtb a b = true) (h2 : ¬ RelTag.tupleLtb b a = true) :
    a = b := by
  rw [rel_ltb_iff] at h1 h2
  obtain ⟨f1, s1, d1, r1⟩ := a
  obtain ⟨f2, s2, d2, r2⟩ := b
  simp only at h1 h2
  simp only [RelTag.mk.injEq]
  omega

theorem rel_ltb_of_ne_not_ltb {a b : RelTag} (hne : a ≠ b)
    (h : RelTag.tupleLtb a b = false) : RelTag.tupleLtb b a = true := by
  by_contra hh
  exact hne (rel_eq_of_not_ltb (by simp [h]) hh)

theorem rel_ltb_fork_le {a b : RelTag} (h : RelTag.tupleLtb a b = true) :
    a.forknum ≤ b.forknum := by
  rw [rel_ltb_iff] at h
  omega

/-- A strict key order implies the `RelTag`s are ordered or equal. -/
theorem key_ltb_rel_cases {a b : RepositoryKey}
    (h : RepositoryKey.tupleLtb a b = true) :
    RelTag.tupleLtb a.tag.rel b.tag.rel = true ∨ a.tag.rel = b.tag.rel := by
  rw [key_ltb_iff] at h
  rw [rel_ltb_iff]
  obtain ⟨⟨⟨f1, s1, d1, r1⟩, k1⟩, l1⟩ := a
  obtain ⟨⟨⟨f2, s2, d2, r2⟩, k2⟩, l2⟩ := b
  simp only [RelTag.mk.injEq] at h ⊢
  omega

/-- A strict `RelTag` order implies a strict key order. -/
theorem key_ltb_of_rel_ltb {a b : RepositoryKey}
    (h : RelTag.tupleLtb a.tag.rel b.tag.rel = true) :
    RepositoryKey.tupleLtb a b = true := by
  rw [rel_ltb_iff] at h
  rw [key_ltb_iff]
  obtain ⟨⟨⟨f1, s1, d1, r1⟩, k1⟩, l1⟩ := a
  obtain ⟨⟨⟨f2, s2, d2, r2⟩, k2⟩, l2⟩ := b
  simp only at h ⊢
  omega

theorem mem_dropWhile_of_not {α : Type} {p : α → Bool} {l : List α} {e : α}
    (he : e ∈ l) (hp : p e = false) : e ∈ l.dropWhile p := by
  induction l with
  | nil => simp at he
  | cons a l ih =>
    rw [List.dropWhile_cons]
    rcases List.mem_cons.mp he with rfl | he'
    · rw [hp]
      simp
    · by_cases hpa : p a = true
      · rw [if_pos (by simpa using hpa)]
        exact ih he'
      · rw [if_neg (by simpa using hpa)]
        exact List.mem_cons_of_mem a he'

/-- In a sorted store every entry at or after the seek position is at or
above the seek key. -/
theorem mem_iterFrom_ge {store : List Entry} {key : RepositoryKey} {e : Entry}
    (hs : sortedStore store) (he : e ∈ iterFrom store key) :
    RepositoryKey.tupleLtb e.1 key = false := by
  induction store with
  | nil => simp [iterFrom] at he
  | cons a l ih =>
    rw [sortedStore, List.pairwise_cons] at hs
    obtain ⟨hhead, htail⟩ := hs
    unfold iterFrom at he
    rw [List.dropWhile_cons] at he
    by_cases hpa : RepositoryKey.tupleLtb a.1 key = true
    · rw [if_pos (by simpa using hpa)] at he
      exact ih htail he
    · rw [if_neg (by simpa using hpa)] at he
      rcases List.mem_cons.mp he with rfl | he'
      · simpa using hpa
      · by_contra hc
        have hc' : RepositoryKey.tupleLtb e.1 key = true := by
          revert hc
          cases RepositoryKey.tupleLtb e.1 key <;> simp
        exact hpa (key_ltb_trans (hhead e he') hc')

theorem iterFrom_sorted {store : List Entry} {key : RepositoryKey}
    (hs : sortedStore store) : sortedStore (iterFrom store key) :=
  List.Pairwise.sublist (List.dropWhile_sublist _) hs

theorem iterFrom_subset {store : List Entry} {key : RepositoryKey} :
    ∀ e ∈ iterFrom store key, e ∈ store :=
  fun _ he => (List.dropWhile_sublist _).subset he

/-- The scan loop of `Timeline::get_databases`: walk forward; break when
the fork number leaves `PG_FILENODEMAP_FORKNUM`; when a key's `RelTag`
differs from `prev_tag` and its LSN is at or below the query `lsn`, set
`prev_tag` to it and push it. -/
def get_databases_loop (entries : List Entry) (lsn : Nat) (prev : RelTag) :
    List RelTag :=
  match entries with
  | [] => []
  | e :: rest =>
    if e.1.tag.rel.forknum ≠ PG_FILENODEMAP_FORKNUM then []
    else if e.1.tag.rel ≠ prev ∧ e.1.lsn ≤ lsn then
      e.1.tag.rel :: get_databases_loop rest lsn e.1.tag.rel
    else get_databases_loop rest lsn prev

/-- `Timeline::get_databases` default body from `repository.rs`: seek to
the minimal `PG_FILENODEMAP_FORKNUM` key `(fork, 0, 0, 0, blk 0, lsn 0)`,
initialise `prev_tag` to that key's `RelTag`, and run the scan loop. -/
def get_databases (store : List Entry) (lsn : Nat) : List RelTag :=
  get_databases_loop
    (iterFrom store ⟨⟨⟨PG_FILENODEMAP_FORKNUM, 0, 0, 0⟩, 0⟩, 0⟩) lsn
    ⟨PG_FILENODEMAP_FORKNUM, 0, 0, 0⟩

theorem bool_eq_false {b : Bool} (h : ¬ b = true) : b = false := by
  cases b
  · rfl
  · exact absurd rfl h

theorem rel_fork_le_of_not_ltb {a b : RelTag} (h : RelTag.tupleLtb a b = false) :
    b.forknum ≤ a.forknum := by
  have h' : ¬ RelTag.tupleLtb a b = true := by simp [h]
  rw [rel_ltb_iff] at h'
  omega

theorem get_databases_loop_mem (entries : List Entry) (lsn : Nat) (prev : RelTag)
    (hsort : entries.Pairwise (fun e1 e2 => RepositoryKey.tupleLtb e1.1 e2.1 = true))
    (hfork : ∀ e ∈ entries, PG_FILENODEMAP_FORKNUM ≤ e.1.tag.rel.forknum)
    (hprev : ∀ e ∈ entries, RelTag.tupleLtb e.1.tag.rel prev = false) :
    ∀ t : RelTag, t ∈ get_databases_loop entries lsn prev ↔
      (t ≠ prev ∧ t.forknum = PG_FILENODEMAP_FORKNUM ∧
        ∃ e ∈ entries, e.1.tag.rel = t ∧ e.1.lsn ≤ lsn) := by
  induction entries generalizing prev with
  | nil =>
    intro t
    simp [get_databases_loop]
  | cons e rest ih =>
    rw [List.pairwise_cons] at hsort
    obtain ⟨hhead, htail⟩ := hsort
    intro t
    have hforkrest : ∀ x ∈ rest, PG_FILENODEMAP_FORKNUM ≤ x.1.tag.rel.forknum :=
      fun x hx => hfork x (List.mem_cons_of_mem e hx)
    have hrel_le : ∀ x ∈ rest, RelTag.tupleLtb x.1.tag.rel e.1.tag.rel = false := by
      intro x hx
      rcases key_ltb_rel_cases (hhead x hx) with hlt | heq
      · exact rel_ltb_asymm hlt
      · rw [← heq]
        exact RelTag.tupleLtb_irrefl _
    unfold get_databases_loop
    by_cases hforkE : e.1.tag.rel.forknum = PG_FILENODEMAP_FORKNUM
    · rw [if_neg (by simp [hforkE])]
      by_cases hpush : e.1.tag.rel ≠ prev ∧ e.1.lsn ≤ lsn
      · rw [if_pos hpush]
        have ihh := ih e.1.tag.rel htail hforkrest hrel_le t
        rw [List.mem_cons, ihh]
        constructor
        · rintro (rfl | ⟨hne, hforkT, x, hx, hrelx, hlsnx⟩)
          · exact ⟨hpush.1, hforkE, e, List.mem_cons_self e rest, rfl, hpush.2⟩
          · refine ⟨?_, hforkT, x, List.mem_cons_of_mem e hx, hrelx, hlsnx⟩
            intro hteq
            have hprevE : RelTag.tupleLtb e.1.tag.rel prev = false :=
              hprev e (List.mem_cons_self e rest)
            have hxe : RelTag.tupleLtb t e.1.tag.rel = false := by
              rw [← hrelx]
              exact hrel_le x hx
            have hlt : RelTag.tupleLtb e.1.tag.rel t = true :=
              rel_ltb_of_ne_not_ltb hne hxe
            rw [hteq] at hlt
            rw [hprevE] at hlt
            simp at hlt
        · rintro ⟨hne, hforkT, x, hx, hrelx, hlsnx⟩
          rcases List.mem_cons.mp hx with rfl | hx'
          · exact Or.inl hrelx.symm
          · by_cases hte : t = e.1.tag.rel
            · exact Or.inl hte
            · exact Or.inr ⟨hte, hforkT, x, hx', hrelx, hlsnx⟩
      · rw [if_neg hpush]
        have hprevrest : ∀ x ∈ rest, RelTag.tupleLtb x.1.tag.rel prev = false :=
          fun x hx => hprev x (List.mem_cons_of_mem e hx)
        have ihh := ih prev htail hforkrest hprevrest t
        rw [ihh]
        constructor
        · rintro ⟨hne, hforkT, x, hx, hrelx, hlsnx⟩
          exact ⟨hne, hforkT, x, List.mem_cons_of_mem e hx, hrelx, hlsnx⟩
        · rintro ⟨hne, hforkT, x, hx, hrelx, hlsnx⟩
          rcases List.mem_cons.mp hx with rfl | hx'
          · exfalso
            rcases not_and_or.mp hpush with h | h
            · exact hne (hrelx.symm.trans (not_not.mp h))
            · exact h hlsnx
          · exact ⟨hne, hforkT, x, hx', hrelx, hlsnx⟩
    · rw [if_pos hforkE]
      constructor
      · intro ht
        simp at ht
      · rintro ⟨hne, hforkT, x, hx, hrelx, hlsnx⟩
        exfalso
        rcases List.mem_cons.mp hx with rfl | hx'
        · exact hforkE (by rw [← hrelx] at hforkT; exact hforkT)
        · have h1 : e.1.tag.rel.forknum ≤ x.1.tag.rel.forknum :=
            rel_fork_le_of_not_ltb (hrel_le x hx')
          have h2 : PG_FILENODEMAP_FORKNUM ≤ e.1.tag.rel.forknum :=
            hfork e (List.mem_cons_self e rest)
          rw [hrelx, hforkT] at h1
          omega

theorem get_databases_loop_gt (entries : List Entry) (lsn : Nat) (prev : RelTag)
    (hsort : entries.Pairwise (fun e1 e2 => RepositoryKey.tupleLtb e1.1 e2.1 = true))
    (hprev : ∀ e ∈ entries, RelTag.tupleLtb e.1.tag.rel prev = false) :
    ∀ t ∈ get_databases_loop entries lsn prev, RelTag.tupleLtb prev t = true := by
  induction entries generalizing prev with
  | nil =>
    intro t ht
    simp [get_databases_loop] at ht
  | cons e rest ih =>
    rw [List.pairwise_cons] at hsort
    obtain ⟨hhead, htail⟩ := hsort
    have hrel_le : ∀ x ∈ rest, RelTag.tupleLtb x.1.tag.rel e.1.tag.rel = false := by
      intro x hx
      rcases key_ltb_rel_cases (hhead x hx) with hlt | heq
      · exact rel_ltb_asymm hlt
      · rw [← heq]
        exact RelTag.tupleLtb_irrefl _
    intro t ht
    unfold get_databases_loop at ht
    by_cases hforkE : e.1.tag.rel.forknum ≠ PG_FILENODEMAP_FORKNUM
    · rw [if_pos hforkE] at ht
      simp at ht
    · rw [if_neg hforkE] at ht
      by_cases hpush : e.1.tag.rel ≠ prev ∧ e.1.lsn ≤ lsn
      · rw [if_pos hpush] at ht
        have hltE : RelTag.tupleLtb prev e.1.tag.rel = true :=
          rel_ltb_of_ne_not_ltb hpush.1 (hprev e (List.mem_cons_self e rest))
        rcases List.mem_cons.mp ht with rfl | ht'
        · exact hltE
        · exact rel_ltb_trans hltE (ih e.1.tag.rel htail hrel_le t ht')
      · rw [if_neg hpush] at ht
        have hprevrest : ∀ x ∈ rest, RelTag.tupleLtb x.1.tag.rel prev = false :=
          fun x hx => hprev x (List.mem_cons_of_mem e hx)
        exact ih prev htail hprevrest t ht

theorem get_databases_loop_nodup (entries : List Entry) (lsn : Nat) (prev : RelTag)
    (hsort : entries.Pairwise (fun e1 e2 => RepositoryKey.tupleLtb e1.1 e2.1 = true))
    (hprev : ∀ e ∈ entries, RelTag.tupleLtb e.1.tag.rel prev = false) :
    (get_databases_loop entries lsn prev).Nodup := by
  induction entries generalizing prev with
  | nil => simp [get_databases_loop]
  | cons e rest ih =>
    rw [List.pairwise_cons] at hsort
    obtain ⟨hhead, htail⟩ := hsort
    have hrel_le : ∀ x ∈ rest, RelTag.tupleLtb x.1.tag.rel e.1.tag.rel = false := by
      intro x hx
      rcases key_ltb_rel_cases (hhead x hx) with hlt | heq
      · exact rel_ltb_asymm hlt
      · rw [← heq]
        exact RelTag.tupleLtb_irrefl _
    unfold get_databases_loop
    by_cases hforkE : e.1.tag.rel.forknum ≠ PG_FILENODEMAP_FORKNUM
    · rw [if_pos hforkE]
      simp
    · rw [if_neg hforkE]
      by_cases hpush : e.1.tag.rel ≠ prev ∧ e.1.lsn ≤ lsn
      · rw [if_pos hpush]
        rw [List.nodup_cons]
        refine ⟨?_, ih e.1.tag.rel htail hrel_le⟩
        intro hmem
        have := get_databases_loop_gt rest lsn e.1.tag.rel htail hrel_le _ hmem
        rw [RelTag.tupleLtb_irrefl] at this
        simp at this
      · rw [if_neg hpush]
        exact ih prev htail (fun x hx => hprev x (List.mem_cons_of_mem e hx))

/-- C7 (counterexample): `get_databases` deduplicates on the full `RelTag`
(relnode included) against a `prev_tag` initialised to
`(PG_FILENODEMAP_FORKNUM, 0, 0, 0)`.  With a stored filenodemap key whose
tag equals that initial `prev_tag` and two filenodemap keys sharing
`(tablespace, database) = (1, 2)` under different relnodes, the result
misses the pair `(0, 0)` entirely and lists `(1, 2)` twice — the claim
predicts exactly the distinct pairs `{(0, 0), (1, 2)}`, each once. -/
theorem C7_counterexample :
    get_databases
        [(⟨⟨⟨PG_FILENODEMAP_FORKNUM, 0, 0, 0⟩, 0⟩, 5⟩, []),
         (⟨⟨⟨PG_FILENODEMAP_FORKNUM, 1, 2, 7⟩, 0⟩, 5⟩, []),
         (⟨⟨⟨PG_FILENODEMAP_FORKNUM, 1, 2, 8⟩, 0⟩, 5⟩, [])] 10 =
      [⟨PG_FILENODEMAP_FORKNUM, 1, 2, 7⟩, ⟨PG_FILENODEMAP_FORKNUM, 1, 2, 8⟩] ∧
    (∃ e ∈ ([(⟨⟨⟨PG_FILENODEMAP_FORKNUM, 0, 0, 0⟩, 0⟩, 5⟩, []),
         (⟨⟨⟨PG_FILENODEMAP_FORKNUM, 1, 2, 7⟩, 0⟩, 5⟩, []),
         (⟨⟨⟨PG_FILENODEMAP_FORKNUM, 1, 2, 8⟩, 0⟩, 5⟩, [])] : List Entry),
      e.1.tag.rel.forknum = PG_FILENODEMAP_FORKNUM ∧
        e.1.tag.rel.spcnode = 0 ∧ e.1.tag.rel.dbnode = 0 ∧ e.1.lsn ≤ 10) ∧
    ¬ (∃ t ∈ get_databases
        [(⟨⟨⟨PG_FILENODEMAP_FORKNUM, 0, 0, 0⟩, 0⟩, 5⟩, []),
         (⟨⟨⟨PG_FILENODEMAP_FORKNUM, 1, 2, 7⟩, 0⟩, 5⟩, []),
         (⟨⟨⟨PG_FILENODEMAP_FORKNUM, 1, 2, 8⟩, 0⟩, 5⟩, [])] 10,
        t.spcnode = 0 ∧ t.dbnode = 0) := by
  refine ⟨by decide, by decide, by decide⟩

/-- C7 (amended): on a sorted store, `get_databases(lsn)` returns exactly
the distinct `RelTag`s — not `(tablespace, database)` pairs — in the
`PG_FILENODEMAP_FORKNUM` subspace with at least one key of LSN ≤ `lsn`,
each tag exactly once, except that the tag equal to the initial
`prev_tag` value `(PG_FILENODEMAP_FORKNUM, 0, 0, 0)` is never reported;
a `(tablespace, database)` pair therefore repeats when several relnodes
share it. -/
theorem C7_amended_get_databases (store : List Entry) (lsn : Nat)
    (hs : sortedStore store) :
    (get_databases store lsn).Nodup ∧
    ∀ t : RelTag, t ∈ get_databases store lsn ↔
      (t ≠ ⟨PG_FILENODEMAP_FORKNUM, 0, 0, 0⟩ ∧
        t.forknum = PG_FILENODEMAP_FORKNUM ∧
        ∃ e ∈ store, e.1.tag.rel = t ∧ e.1.lsn ≤ lsn) := by
  have hsorted : sortedStore
      (iterFrom store ⟨⟨⟨PG_FILENODEMAP_FORKNUM, 0, 0, 0⟩, 0⟩, 0⟩) :=
    iterFrom_sorted hs
  have hfork : ∀ e ∈ iterFrom store ⟨⟨⟨PG_FILENODEMAP_FORKNUM, 0, 0, 0⟩, 0⟩, 0⟩,
      PG_FILENODEMAP_FORKNUM ≤ e.1.tag.rel.forknum := by
    intro e he
    have hge := mem_iterFrom_ge hs he
    have hge' : ¬ RepositoryKey.tupleLtb e.1
        ⟨⟨⟨PG_FILENODEMAP_FORKNUM, 0, 0, 0⟩, 0⟩, 0⟩ = true := by
      simp [hge]
    rw [key_ltb_iff] at hge'
    simp only at hge'
    omega
  have hprev : ∀ e ∈ iterFrom store ⟨⟨⟨PG_FILENODEMAP_FORKNUM, 0, 0, 0⟩, 0⟩, 0⟩,
      RelTag.tupleLtb e.1.tag.rel ⟨PG_FILENODEMAP_FORKNUM, 0, 0, 0⟩ = false := by
    intro e he
    apply bool_eq_false
    intro hc
    have hk : RepositoryKey.tupleLtb e.1
        ⟨⟨⟨PG_FILENODEMAP_FORKNUM, 0, 0, 0⟩, 0⟩, 0⟩ = true :=
      key_ltb_of_rel_ltb hc
    rw [mem_iterFrom_ge hs he] at hk
    simp at hk
  constructor
  · exact get_databases_loop_nodup _ lsn _ hsorted hprev
  · intro t
    rw [get_databases, get_databases_loop_mem _ lsn _ hsorted hfork hprev t]
    constructor
    · rintro ⟨h1, h2, x, hx, h3, h4⟩
      exact ⟨h1, h2, x, iterFrom_subset x hx, h3, h4⟩
    · rintro ⟨h1, h2, x, hx, h3, h4⟩
      refine ⟨h1, h2, x, ?_, h3, h4⟩
      apply mem_dropWhile_of_not hx
      apply bool_eq_false
      intro hc
      rw [key_ltb_iff] at hc
      have hf := congrArg RelTag.forknum h3
      simp only at hc hf
      rw [h2] at hf
      omega

/-- Witness for the amended C5 on a concrete two-entry store. -/
theorem C5_witness :
    get_range [(⟨⟨⟨0, 0, 111, 1000⟩, 2⟩, 7⟩, []), (⟨⟨⟨0, 0, 111, 1000⟩, 4⟩, 3⟩, [])]
      ⟨0, 0, 111, 1000⟩ 9 = (2, 5) :=
  (C5_amended_get_range
      [(⟨⟨⟨0, 0, 111, 1000⟩, 2⟩, 7⟩, []), (⟨⟨⟨0, 0, 111, 1000⟩, 4⟩, 3⟩, [])]
      ⟨0, 0, 111, 1000⟩ 9 (by decide) (by decide)).2 2 4
    (by decide) (by decide) (by decide) (by decide)

/-- Witness for the amended C7 on a concrete one-entry store. -/
theorem C7_witness :
    (get_databases [(⟨⟨⟨PG_FILENODEMAP_FORKNUM, 1, 2, 7⟩, 0⟩, 5⟩, [])] 10).Nodup ∧
      (⟨PG_FILENODEMAP_FORKNUM, 1, 2, 7⟩ ∈
          get_databases [(⟨⟨⟨PG_FILENODEMAP_FORKNUM, 1, 2, 7⟩, 0⟩, 5⟩, [])] 10 ↔
        ((⟨PG_FILENODEMAP_FORKNUM, 1, 2, 7⟩ : RelTag) ≠
            ⟨PG_FILENODEMAP_FORKNUM, 0, 0, 0⟩ ∧
          (⟨PG_FILENODEMAP_FORKNUM, 1, 2, 7⟩ : RelTag).forknum =
            PG_FILENODEMAP_FORKNUM ∧
          ∃ e ∈ ([(⟨⟨⟨PG_FILENODEMAP_FORKNUM, 1, 2, 7⟩, 0⟩, 5⟩, [])] : List Entry),
            e.1.tag.rel = ⟨PG_FILENODEMAP_FORKNUM, 1, 2, 7⟩ ∧ e.1.lsn ≤ 10)) :=
  ⟨(C7_amended_get_databases
      [(⟨⟨⟨PG_FILENODEMAP_FORKNUM, 1, 2, 7⟩, 0⟩, 5⟩, [])] 10 (by decide)).1,
    (C7_amended_get_databases
      [(⟨⟨⟨PG_FILENODEMAP_FORKNUM, 1, 2, 7⟩, 0⟩, 5⟩, [])] 10 (by decide)).2
      ⟨PG_FILENODEMAP_FORKNUM, 1, 2, 7⟩⟩

/-- The per-fork copy loop of `Timeline::put_create_database` from
`repository.rs`: while the iterator is valid, break as soon as the key's
tablespace or database differs from `(src_tablespace_id, src_db_id)`;
otherwise rewrite the key's tablespace and database to the destination
and its LSN to `lsn`, emit `put_raw_data` with the original value bytes,
and step to the next entry. -/
def create_db_walk (entries : List Entry)
    (lsn db_id tablespace_id src_db_id src_tablespace_id : Nat) :
    List (RepositoryKey × List Nat) :=
  match entries with
  | [] => []
  | e :: rest =>
    if e.1.tag.rel.spcnode ≠ src_tablespace_id ∨ e.1.tag.rel.dbnode ≠ src_db_id then []
    else
      (⟨⟨⟨e.1.tag.rel.forknum, tablespace_id, db_id, e.1.tag.rel.relnode⟩,
          e.1.tag.blknum⟩, lsn⟩, e.2) ::
        create_db_walk rest lsn db_id tablespace_id src_db_id src_tablespace_id

/-- `Timeline::put_create_database` default body from `repository.rs`:
for each of the five forks, seek to
`(forknum, src_tablespace_id, src_db_id, relnode 0, blk 0, lsn 0)` and run
the copy loop; the result is the list of `put_raw_data` calls in order. -/
def put_create_database (store : List Entry)
    (lsn db_id tablespace_id src_db_id src_tablespace_id : Nat) :
    List (RepositoryKey × List Nat) :=
  [MAIN_FORKNUM, FSM_FORKNUM, VISIBILITYMAP_FORKNUM, INIT_FORKNUM,
    PG_FILENODEMAP_FORKNUM].flatMap
    (fun forknum =>
      create_db_walk
        (iterFrom store ⟨⟨⟨forknum, src_tablespace_id, src_db_id, 0⟩, 0⟩, 0⟩)
        lsn db_id tablespace_id src_db_id src_tablespace_id)

/-- A key lying between two keys sharing `(forknum, spcnode, dbnode)`
shares those three fields. -/
theorem key_spcdb_sandwich (lo hi x : RepositoryKey)
    (hf : lo.tag.rel.forknum = hi.tag.rel.forknum)
    (hsp : lo.tag.rel.spcnode = hi.tag.rel.spcnode)
    (hd : lo.tag.rel.dbnode = hi.tag.rel.dbnode)
    (h1 : RepositoryKey.tupleLtb x lo = false)
    (h2 : RepositoryKey.tupleLtb hi x = false) :
    x.tag.rel.forknum = lo.tag.rel.forknum ∧
      x.tag.rel.spcnode = lo.tag.rel.spcnode ∧
      x.tag.rel.dbnode = lo.tag.rel.dbnode := by
  have n1 : ¬ RepositoryKey.tupleLtb x lo = true := by simp [h1]
  have n2 : ¬ RepositoryKey.tupleLtb hi x = true := by simp [h2]
  rw [key_ltb_iff] at n1 n2
  obtain ⟨⟨⟨fl, sl, dl, rl⟩, kl⟩, ll⟩ := lo
  obtain ⟨⟨⟨fh, sh, dh, rh⟩, kh⟩, lh⟩ := hi
  obtain ⟨⟨⟨fx, sx, dx, rx⟩, kx⟩, lx⟩ := x
  simp only at hf hsp hd n1 n2 ⊢
  omega

/-- Every entry at or before `e` in the walked list is copied before the
walk can break, so `e` itself is copied (with its key rewritten). -/
theorem create_db_walk_mem (lsn db_id tablespace_id src_db_id src_tablespace_id : Nat) :
    ∀ (entries : List Entry) (e : Entry),
      entries.Pairwise (fun e1 e2 => RepositoryKey.tupleLtb e1.1 e2.1 = true) →
      e ∈ entries →
      (∀ x ∈ entries, RepositoryKey.tupleLtb e.1 x.1 = false →
        x.1.tag.rel.spcnode = src_tablespace_id ∧
          x.1.tag.rel.dbnode = src_db_id) →
      (⟨⟨⟨e.1.tag.rel.forknum, tablespace_id, db_id, e.1.tag.rel.relnode⟩,
          e.1.tag.blknum⟩, lsn⟩, e.2) ∈
        create_db_walk entries lsn db_id tablespace_id src_db_id src_tablespace_id := by
  intro entries
  induction entries with
  | nil =>
    intro e _ he _
    simp at he
  | cons a rest ih =>
    intro e hsort he hall
    rw [List.pairwise_cons] at hsort
    obtain ⟨hhead, htail⟩ := hsort
    have hle : RepositoryKey.tupleLtb e.1 a.1 = false := by
      rcases List.mem_cons.mp he with rfl | he'
      · exact key_ltb_irrefl _
      · exact key_ltb_asymm (hhead e he')
    obtain ⟨hsp, hdb⟩ := hall a (List.mem_cons_self a rest) hle
    unfold create_db_walk
    rw [if_neg (by simp [hsp, hdb])]
    rcases List.mem_cons.mp he with rfl | he'
    · exact List.mem_cons_self _ _
    · exact List.mem_cons_of_mem _
        (ih e htail he' (fun x hx h => hall x (List.mem_cons_of_mem a hx) h))

/-- C6: after `put_create_database(lsn, db, ts, src_db, src_ts)` over a
sorted store, every stored entry in one of the five listed forks whose
key has tablespace `src_ts` and database `src_db` has been written via
`put_raw_data` to a key identical to the source key except that its
tablespace is `ts`, its database is `db` and its LSN is `lsn`, with the
source entry's exact value bytes. -/
theorem C6_create_database_copies_sources (store : List Entry)
    (lsn db_id tablespace_id src_db_id src_tablespace_id : Nat)
    (hs : sortedStore store) :
    ∀ e ∈ store,
      (e.1.tag.rel.forknum = MAIN_FORKNUM ∨ e.1.tag.rel.forknum = FSM_FORKNUM ∨
        e.1.tag.rel.forknum = VISIBILITYMAP_FORKNUM ∨
        e.1.tag.rel.forknum = INIT_FORKNUM ∨
        e.1.tag.rel.forknum = PG_FILENODEMAP_FORKNUM) →
      e.1.tag.rel.spcnode = src_tablespace_id →
      e.1.tag.rel.dbnode = src_db_id →
      (⟨⟨⟨e.1.tag.rel.forknum, tablespace_id, db_id, e.1.tag.rel.relnode⟩,
          e.1.tag.blknum⟩, lsn⟩, e.2) ∈
        put_create_database store lsn db_id tablespace_id src_db_id src_tablespace_id := by
  intro e hmem hfork hsp hdb
  have hforkmem : e.1.tag.rel.forknum ∈
      [MAIN_FORKNUM, FSM_FORKNUM, VISIBILITYMAP_FORKNUM, INIT_FORKNUM,
        PG_FILENODEMAP_FORKNUM] := by
    rcases hfork with h | h | h | h | h <;> simp [h]
  rw [put_create_database, List.mem_flatMap]
  refine ⟨e.1.tag.rel.forknum, hforkmem, ?_⟩
  have hstart : RepositoryKey.tupleLtb e.1
      ⟨⟨⟨e.1.tag.rel.forknum, src_tablespace_id, src_db_id, 0⟩, 0⟩, 0⟩ = false := by
    apply bool_eq_false
    intro hc
    rw [key_ltb_iff] at hc
    simp only at hc
    omega
  apply create_db_walk_mem
  · exact iterFrom_sorted hs
  · exact mem_dropWhile_of_not hmem hstart
  · intro x hx hxe
    have hxge := mem_iterFrom_ge hs hx
    have := key_spcdb_sandwich
      ⟨⟨⟨e.1.tag.rel.forknum, src_tablespace_id, src_db_id, 0⟩, 0⟩, 0⟩
      e.1 x.1 (by simp) (by simp [hsp]) (by simp [hdb]) hxge hxe
    simp only at this
    exact ⟨this.2.1, this.2.2⟩

/-- Witness for C6 on a concrete one-entry store. -/
theorem C6_witness :
    ((⟨⟨⟨0, 2, 2, 5⟩, 0⟩, 42⟩, [9]) : RepositoryKey × List Nat) ∈
      put_create_database [(⟨⟨⟨0, 1, 1, 5⟩, 0⟩, 3⟩, [9])] 42 2 2 1 1 :=
  C6_create_database_copies_sources [(⟨⟨⟨0, 1, 1, 5⟩, 0⟩, 3⟩, [9])] 42 2 2 1 1
    (by decide) (⟨⟨⟨0, 1, 1, 5⟩, 0⟩, 3⟩, [9]) (by decide)
    (by decide) (by decide) (by decide)

/-- C9: the copy walk of `put_create_database` breaks only when the
tablespace or database changes, never when the fork number changes: with
a single stored entry in fork 7 (not among the five listed forks) under
the source `(tablespace, database)`, the entry is copied — and copied
once per listed fork whose seek lands on it, here four times. -/
theorem C9_walk_ignores_forknum :
    put_create_database [(⟨⟨⟨7, 1, 1, 5⟩, 0⟩, 3⟩, [1, 2, 3])] 9 2 2 1 1 =
      [(⟨⟨⟨7, 2, 2, 5⟩, 0⟩, 9⟩, [1, 2, 3]), (⟨⟨⟨7, 2, 2, 5⟩, 0⟩, 9⟩, [1, 2, 3]),
        (⟨⟨⟨7, 2, 2, 5⟩, 0⟩, 9⟩, [1, 2, 3]), (⟨⟨⟨7, 2, 2, 5⟩, 0⟩, 9⟩, [1, 2, 3])] ∧
    (7 : Nat) ∉ [MAIN_FORKNUM, FSM_FORKNUM, VISIBILITYMAP_FORKNUM, INIT_FORKNUM,
      PG_FILENODEMAP_FORKNUM] ∧
    1 < (put_create_database [(⟨⟨⟨7, 1, 1, 5⟩, 0⟩, 3⟩, [1, 2, 3])] 9 2 2 1 1).count
      (⟨⟨⟨7, 2, 2, 5⟩, 0⟩, 9⟩, [1, 2, 3]) := by
  refine ⟨by decide, by decide, by decide⟩

/-- A block entry of a decoded WAL record (`DecodedBkpBlock`).  Modelled
from the spec: the WAL decoder — outside the embedded sources — supplies
per-block `rnode_*` fields, `forknum`, `blkno` and the
`will_init` / `apply_image` / `will_drop` flags. -/
structure DecodedBkpBlock where
  rnode_spcnode : Nat
  rnode_dbnode : Nat
  rnode_relnode : Nat
  forknum : Nat
  blkno : Nat
  will_init : Bool
  apply_image : Bool
  will_drop : Bool
  deriving DecidableEq, Repr

/-- Modelled from the spec: the payload `XlSmgrTruncate::decode` produces
from a smgr-truncate record — target relation, new block count and flags.
Its decoder lies outside the embedded sources, so the decoded value is
carried alongside the record. -/
structure XlSmgrTruncate where
  blkno : Nat
  spcnode : Nat
  dbnode : Nat
  relnode : Nat
  flags : Nat
  deriving DecidableEq, Repr

/-- Modelled from the spec: the payload `XlCreateDatabase::decode`
produces from a database-create record. -/
structure XlCreateDatabase where
  db_id : Nat
  tablespace_id : Nat
  src_db_id : Nat
  src_tablespace_id : Nat
  deriving DecidableEq, Repr

/-- Modelled from the spec: `DecodedWALRecord` as supplied by the WAL
decoder (outside the embedded sources): `blocks`, `xl_rmid`, `xl_info`
and `main_data_offset`, plus the two special-case payload parses. -/
structure DecodedWALRecord where
  xl_rmid : Nat
  xl_info : Nat
  main_data_offset : Nat
  blocks : List DecodedBkpBlock
  smgr_truncate : XlSmgrTruncate
  create_database : XlCreateDatabase
  deriving DecidableEq, Repr

/-- The `Timeline` trait calls issued by the default method body of
`save_decoded_record`; `advance_last_valid_lsn` is included so that its
absence from a call trace is expressible. -/
inductive Call where
  | put_drop (tag : BufferTag) (lsn : Nat)
  | put_wal_record (tag : BufferTag) (rec : WALRecord)
  | put_truncation (rel : RelTag) (lsn : Nat) (nblocks : Nat)
  | put_create_database (lsn db_id tablespace_id src_db_id src_tablespace_id : Nat)
  | advance_last_record_lsn (lsn : Nat)
  | advance_last_valid_lsn (lsn : Nat)
  deriving DecidableEq, Repr

/-- Sequencing of fallible trait calls: run `a`; if it succeeded,
continue with `f` and concatenate the performed calls — the semantics of
Rust's `?` operator over a call trace. -/
def andThen (a : List Call × Bool) (f : Unit → List Call × Bool) : List Call × Bool :=
  if a.2 then (a.1 ++ (f ()).1, (f ()).2) else a

/-- Issue a single fallible call; `ok` says whether the implementation
returns `Ok` for it. -/
def call1 (ok : Call → Bool) (c : Call) : List Call × Bool := ([c], ok c)

/-- The per-block loop of `save_decoded_record` from `repository.rs`:
for each block build the `BufferTag`; on `will_drop` issue `put_drop`,
otherwise build the `WALRecord` with
`will_init = blk.will_init || blk.apply_image`, `rec = recdata` and the
record's `main_data_offset`, and issue `put_wal_record`; stop at the
first failing call. -/
def save_blocks (ok : Call → Bool) (blocks : List DecodedBkpBlock)
    (recdata : List Nat) (main_data_offset lsn : Nat) : List Call × Bool :=
  match blocks with
  | [] => ([], true)
  | blk :: rest =>
    let tag : BufferTag :=
      ⟨⟨blk.forknum, blk.rnode_spcnode, blk.rnode_dbnode, blk.rnode_relnode⟩,
        blk.blkno⟩
    let c : Call :=
      if blk.will_drop then Call.put_drop tag lsn
      else Call.put_wal_record tag
        ⟨lsn, blk.will_init || blk.apply_image, recdata, main_data_offset⟩
    if ok c then
      let r := save_blocks ok rest recdata main_data_offset lsn
      (c :: r.1, r.2)
    else ([c], false)

/-- The special-case section of `save_decoded_record`: a smgr-truncate
record with the heap flag issues `put_truncation` on the relation's MAIN
fork at the record's `lsn` with the record's new block count; a
database-create record issues `put_create_database`. -/
def save_special (ok : Call → Bool) (decoded : DecodedWALRecord) (lsn : Nat) :
    List Call × Bool :=
  if decoded.xl_rmid = RM_SMGR_ID ∧
      decoded.xl_info &&& XLR_RMGR_INFO_MASK = XLOG_SMGR_TRUNCATE then
    if decoded.smgr_truncate.flags &&& SMGR_TRUNCATE_HEAP ≠ 0 then
      call1 ok (Call.put_truncation
        ⟨MAIN_FORKNUM, decoded.smgr_truncate.spcnode, decoded.smgr_truncate.dbnode,
          decoded.smgr_truncate.relnode⟩ lsn decoded.smgr_truncate.blkno)
    else ([], true)
  else if decoded.xl_rmid = RM_DBASE_ID ∧
      decoded.xl_info &&& XLR_RMGR_INFO_MASK = XLOG_DBASE_CREATE then
    call1 ok (Call.put_create_database lsn decoded.create_database.db_id
      decoded.create_database.tablespace_id decoded.create_database.src_db_id
      decoded.create_database.src_tablespace_id)
  else ([], true)

/-- `Timeline::save_decoded_record` default body from `repository.rs`:
the per-block loop, then the special cases, then
`advance_last_record_lsn(lsn)`; any `Err` propagates immediately. -/
def save_decoded_record (ok : Call → Bool) (decoded : DecodedWALRecord)
    (recdata : List Nat) (lsn : Nat) : List Call × Bool :=
  andThen (save_blocks ok decoded.blocks recdata decoded.main_data_offset lsn)
    (fun _ => andThen (save_special ok decoded lsn)
      (fun _ => ([Call.advance_last_record_lsn lsn], true)))

/-- Is the call one of the two per-block puts? -/
def isBlockPut : Call → Bool
  | Call.put_drop _ _ => true
  | Call.put_wal_record _ _ => true
  | _ => false

/-- Is the call a `put_truncation`? -/
def isTruncation : Call → Bool
  | Call.put_truncation _ _ _ => true
  | _ => false

/-- The per-block effect stated by the spec: `put_drop(tag, lsn)` for a
dropped block, otherwise `put_wal_record(tag, rec)` with
`rec.lsn = lsn`, `rec.will_init = blk.will_init || blk.apply_image`,
`rec.rec = recdata` and the record's `main_data_offset`. -/
def blockOp (recdata : List Nat) (main_data_offset lsn : Nat)
    (blk : DecodedBkpBlock) : Call :=
  if blk.will_drop then
    Call.put_drop
      ⟨⟨blk.forknum, blk.rnode_spcnode, blk.rnode_dbnode, blk.rnode_relnode⟩,
        blk.blkno⟩ lsn
  else
    Call.put_wal_record
      ⟨⟨blk.forknum, blk.rnode_spcnode, blk.rnode_dbnode, blk.rnode_relnode⟩,
        blk.blkno⟩
      ⟨lsn, blk.will_init || blk.apply_image, recdata, main_data_offset⟩

theorem save_blocks_success_trace (ok : Call → Bool) (recdata : List Nat)
    (main_data_offset lsn : Nat) :
    ∀ blocks : List DecodedBkpBlock,
      (save_blocks ok blocks recdata main_data_offset lsn).2 = true →
      (save_blocks ok blocks recdata main_data_offset lsn).1 =
        blocks.map (blockOp recdata main_data_offset lsn) := by
  intro blocks
  induction blocks with
  | nil =>
    intro _
    rfl
  | cons blk rest ih =>
    intro hsucc
    unfold save_blocks at hsucc ⊢
    by_cases hok : ok (blockOp recdata main_data_offset lsn blk) = true
    · simp only [blockOp] at hok
      rw [if_pos hok] at hsucc ⊢
      simp only at hsucc ⊢
      rw [List.map_cons]
      rw [ih hsucc]
      rfl
    · simp only [blockOp] at hok
      rw [if_neg hok] at hsucc
      simp at hsucc

theorem save_blocks_all_blockput (ok : Call → Bool) (recdata : List Nat)
    (main_data_offset lsn : Nat) :
    ∀ blocks : List DecodedBkpBlock,
      ∀ c ∈ (save_blocks ok blocks recdata main_data_offset lsn).1,
        isBlockPut c = true := by
  intro blocks
  induction blocks with
  | nil =>
    intro c hc
    simp [save_blocks] at hc
  | cons blk rest ih =>
    intro c hc
    unfold save_blocks at hc
    simp only at hc
    split at hc <;> split at hc
    · rcases List.mem_cons.mp hc with rfl | hc'
      · rfl
      · exact ih c hc'
    · rw [List.mem_singleton] at hc
      subst hc
      rfl
    · rcases List.mem_cons.mp hc with rfl | hc'
      · rfl
      · exact ih c hc'
    · rw [List.mem_singleton] at hc
      subst hc
      rfl

theorem save_special_shape (ok : Call → Bool) (decoded : DecodedWALRecord)
    (lsn : Nat) :
    (save_special ok decoded lsn).1 = [] ∨
    (save_special ok decoded lsn).1 =
      [Call.put_truncation
        ⟨MAIN_FORKNUM, decoded.smgr_truncate.spcnode, decoded.smgr_truncate.dbnode,
          decoded.smgr_truncate.relnode⟩ lsn decoded.smgr_truncate.blkno] ∨
    (save_special ok decoded lsn).1 =
      [Call.put_create_database lsn decoded.create_database.db_id
        decoded.create_database.tablespace_id decoded.create_database.src_db_id
        decoded.create_database.src_tablespace_id] := by
  unfold save_special call1
  split_ifs <;> simp

theorem save_decoded_record_cases (ok : Call → Bool) (decoded : DecodedWALRecord)
    (recdata : List Nat) (lsn : Nat) :
    ((save_decoded_record ok decoded recdata lsn).2 = true ∧
      (save_blocks ok decoded.blocks recdata decoded.main_data_offset lsn).2 = true ∧
      (save_decoded_record ok decoded recdata lsn).1 =
        (save_blocks ok decoded.blocks recdata decoded.main_data_offset lsn).1 ++
          ((save_special ok decoded lsn).1 ++ [Call.advance_last_record_lsn lsn])) ∨
    ((save_decoded_record ok decoded recdata lsn).2 = false ∧
      ((save_decoded_record ok decoded recdata lsn).1 =
          (save_blocks ok decoded.blocks recdata decoded.main_data_offset lsn).1 ∨
        (save_decoded_record ok decoded recdata lsn).1 =
          (save_blocks ok decoded.blocks recdata decoded.main_data_offset lsn).1 ++
            (save_special ok decoded lsn).1)) := by
  rcases hB : save_blocks ok decoded.blocks recdata decoded.main_data_offset lsn
    with ⟨tb, sb⟩
  rcases hS : save_special ok decoded lsn with ⟨ts, ss⟩
  unfold save_decoded_record andThen
  rw [hB, hS]
  cases sb
  · right
    exact ⟨by simp, Or.inl (by simp)⟩
  · cases ss
    · right
      exact ⟨by simp, Or.inr (by simp)⟩
    · left
      exact ⟨by simp, by simp, by simp⟩

theorem save_decoded_record_success (ok : Call → Bool) (decoded : DecodedWALRecord)
    (recdata : List Nat) (lsn : Nat)
    (hsucc : (save_decoded_record ok decoded recdata lsn).2 = true) :
    (save_blocks ok decoded.blocks recdata decoded.main_data_offset lsn).2 = true ∧
    (save_decoded_record ok decoded recdata lsn).1 =
      (save_blocks ok decoded.blocks recdata decoded.main_data_offset lsn).1 ++
        ((save_special ok decoded lsn).1 ++ [Call.advance_last_record_lsn lsn]) := by
  rcases save_decoded_record_cases ok decoded recdata lsn with
    ⟨_, hsb, htrace⟩ | ⟨hflag, _⟩
  · exact ⟨hsb, htrace⟩
  · rw [hsucc] at hflag
    simp at hflag

/-- C3: when `save_decoded_record` succeeds, the per-block puts it
performs — in order — are exactly: `put_drop(tag, lsn)` for each block
with `will_drop`, and otherwise `put_wal_record(tag, rec)` with
`rec.lsn = lsn`, `rec.will_init = blk.will_init || blk.apply_image`,
`rec.rec = recdata` and `rec.main_data_offset = decoded.main_data_offset`,
where `tag` is formed from the block's spcnode, dbnode, relnode, forknum
and blkno. -/
theorem C3_save_decoded_record_block_effects (ok : Call → Bool)
    (decoded : DecodedWALRecord) (recdata : List Nat) (lsn : Nat)
    (hsucc : (save_decoded_record ok decoded recdata lsn).2 = true) :
    ((save_decoded_record ok decoded recdata lsn).1).filter isBlockPut =
      decoded.blocks.map (blockOp recdata decoded.main_data_offset lsn) := by
  obtain ⟨hsb, htr⟩ := save_decoded_record_success ok decoded recdata lsn hsucc
  rw [htr, List.filter_append, List.filter_append]
  have h1 : ((save_blocks ok decoded.blocks recdata decoded.main_data_offset lsn).1).filter
      isBlockPut = (save_blocks ok decoded.blocks recdata decoded.main_data_offset lsn).1 :=
    List.filter_eq_self.mpr
      (save_blocks_all_blockput ok recdata decoded.main_data_offset lsn decoded.blocks)
  rw [h1, save_blocks_success_trace ok recdata decoded.main_data_offset lsn
    decoded.blocks hsb]
  have h2 : ((save_special ok decoded lsn).1).filter isBlockPut = [] := by
    rcases save_special_shape ok decoded lsn with h | h | h <;> rw [h] <;> rfl
  rw [h2]
  simp [isBlockPut]

/-- Witness for C3 on a concrete decoded record with one block. -/
theorem C3_witness :
    ((save_decoded_record (fun _ => true)
        ⟨0, 0, 7, [⟨1, 2, 3, 0, 4, false, true, false⟩], ⟨0, 0, 0, 0, 0⟩,
          ⟨0, 0, 0, 0⟩⟩ [5] 6).1).filter isBlockPut =
      [Call.put_wal_record ⟨⟨0, 1, 2, 3⟩, 4⟩ ⟨6, true, [5], 7⟩] :=
  C3_save_decoded_record_block_effects (fun _ => true)
    ⟨0, 0, 7, [⟨1, 2, 3, 0, 4, false, true, false⟩], ⟨0, 0, 0, 0, 0⟩, ⟨0, 0, 0, 0⟩⟩
    [5] 6 (by decide)

/-- C4: `save_decoded_record` calls `advance_last_record_lsn(lsn)` exactly
once, as its very last call, and only when every per-block put and every
special-case handler succeeded; when any call fails the error propagates
and no `advance_last_record_lsn` is issued, and `advance_last_valid_lsn`
is never issued from this method at all, so both counters are unchanged
on error. -/
theorem C4_advance_only_after_success (ok : Call → Bool)
    (decoded : DecodedWALRecord) (recdata : List Nat) (lsn : Nat) :
    ((save_decoded_record ok decoded recdata lsn).2 = true →
      ∃ pre, (save_decoded_record ok decoded recdata lsn).1 =
          pre ++ [Call.advance_last_record_lsn lsn] ∧
        ∀ l : Nat, Call.advance_last_record_lsn l ∉ pre) ∧
    ((save_decoded_record ok decoded recdata lsn).2 = false →
      ∀ l : Nat, Call.advance_last_record_lsn l ∉
        (save_decoded_record ok decoded recdata lsn).1) ∧
    (∀ l : Nat, Call.advance_last_valid_lsn l ∉
      (save_decoded_record ok decoded recdata lsn).1) := by
  have htb_nr : ∀ l : Nat, Call.advance_last_record_lsn l ∉
      (save_blocks ok decoded.blocks recdata decoded.main_data_offset lsn).1 := by
    intro l hmem
    have h := save_blocks_all_blockput ok recdata decoded.main_data_offset lsn
      decoded.blocks _ hmem
    simp [isBlockPut] at h
  have htb_nv : ∀ l : Nat, Call.advance_last_valid_lsn l ∉
      (save_blocks ok decoded.blocks recdata decoded.main_data_offset lsn).1 := by
    intro l hmem
    have h := save_blocks_all_blockput ok recdata decoded.main_data_offset lsn
      decoded.blocks _ hmem
    simp [isBlockPut] at h
  have hts_nr : ∀ l : Nat, Call.advance_last_record_lsn l ∉
      (save_special ok decoded lsn).1 := by
    intro l
    rcases save_special_shape ok decoded lsn with h | h | h <;> rw [h] <;> simp
  have hts_nv : ∀ l : Nat, Call.advance_last_valid_lsn l ∉
      (save_special ok decoded lsn).1 := by
    intro l
    rcases save_special_shape ok decoded lsn with h | h | h <;> rw [h] <;> simp
  rcases save_decoded_record_cases ok decoded recdata lsn with
    ⟨hflag, _, htrace⟩ | ⟨hflag, htrace⟩
  · refine ⟨?_, ?_, ?_⟩
    · intro _
      refine ⟨(save_blocks ok decoded.blocks recdata decoded.main_data_offset lsn).1 ++
        (save_special ok decoded lsn).1, by rw [htrace]; simp, ?_⟩
      intro l hmem
      rcases List.mem_append.mp hmem with h | h
      · exact htb_nr l h
      · exact hts_nr l h
    · intro hfalse
      rw [hflag] at hfalse
      simp at hfalse
    · intro l hmem
      rw [htrace] at hmem
      rcases List.mem_append.mp hmem with h | h
      · exact htb_nv l h
      · rcases List.mem_append.mp h with h2 | h2
        · exact hts_nv l h2
        · simp at h2
  · refine ⟨?_, ?_, ?_⟩
    · intro htrue
      rw [hflag] at htrue
      simp at htrue
    · intro _ l hmem
      rcases htrace with ht | ht <;> rw [ht] at hmem
      · exact htb_nr l hmem
      · rcases List.mem_append.mp hmem with h | h
        · exact htb_nr l h
        · exact hts_nr l h
    · intro l hmem
      rcases htrace with ht | ht <;> rw [ht] at hmem
      · exact htb_nv l hmem
      · rcases List.mem_append.mp hmem with h | h
        · exact htb_nv l h
        · exact hts_nv l h

/-- Witness for C4: with an implementation failing every call, the block
put fails and no advance is issued. -/
theorem C4_witness :
    Call.advance_last_record_lsn 5 ∉ (save_decoded_record (fun _ => false)
      ⟨0, 0, 0, [⟨1, 2, 3, 0, 4, false, false, true⟩], ⟨0, 0, 0, 0, 0⟩,
        ⟨0, 0, 0, 0⟩⟩ [] 5).1 :=
  (C4_advance_only_after_success (fun _ => false)
      ⟨0, 0, 0, [⟨1, 2, 3, 0, 4, false, false, true⟩], ⟨0, 0, 0, 0, 0⟩,
        ⟨0, 0, 0, 0⟩⟩ [] 5).2.1 (by decide) 5

/-- C8: when `save_decoded_record` succeeds on a record with
`xl_rmid = RM_SMGR_ID`, `(xl_info & XLR_RMGR_INFO_MASK) =
XLOG_SMGR_TRUNCATE` and flags including `SMGR_TRUNCATE_HEAP`, it calls
`put_truncation` exactly once, on the relation's MAIN fork, at the
record's `lsn`, with the record's new block count; for any record not
matching this combination no `put_truncation` is issued. -/
theorem C8_smgr_truncate_special_case (ok : Call → Bool)
    (decoded : DecodedWALRecord) (recdata : List Nat) (lsn : Nat)
    (hsucc : (save_decoded_record ok decoded recdata lsn).2 = true) :
    ((decoded.xl_rmid = RM_SMGR_ID ∧
        decoded.xl_info &&& XLR_RMGR_INFO_MASK = XLOG_SMGR_TRUNCATE ∧
        decoded.smgr_truncate.flags &&& SMGR_TRUNCATE_HEAP ≠ 0) →
      ((save_decoded_record ok decoded recdata lsn).1).filter isTruncation =
        [Call.put_truncation
          ⟨MAIN_FORKNUM, decoded.smgr_truncate.spcnode, decoded.smgr_truncate.dbnode,
            decoded.smgr_truncate.relnode⟩ lsn decoded.smgr_truncate.blkno]) ∧
    (¬ (decoded.xl_rmid = RM_SMGR_ID ∧
        decoded.xl_info &&& XLR_RMGR_INFO_MASK = XLOG_SMGR_TRUNCATE ∧
        decoded.smgr_truncate.flags &&& SMGR_TRUNCATE_HEAP ≠ 0) →
      ((save_decoded_record ok decoded recdata lsn).1).filter isTruncation = []) := by
  obtain ⟨hsb, htr⟩ := save_decoded_record_success ok decoded recdata lsn hsucc
  have h1 : ((save_blocks ok decoded.blocks recdata decoded.main_data_offset lsn).1).filter
      isTruncation = [] := by
    rw [List.filter_eq_nil_iff]
    intro c hc
    have h := save_blocks_all_blockput ok recdata decoded.main_data_offset lsn
      decoded.blocks c hc
    cases c <;> simp_all [isBlockPut, isTruncation]
  constructor
  · rintro ⟨hc1, hc2, hc3⟩
    rw [htr, List.filter_append, List.filter_append, h1]
    have h2 : (save_special ok decoded lsn).1 =
        [Call.put_truncation
          ⟨MAIN_FORKNUM, decoded.smgr_truncate.spcnode, decoded.smgr_truncate.dbnode,
            decoded.smgr_truncate.relnode⟩ lsn decoded.smgr_truncate.blkno] := by
      unfold save_special
      rw [if_pos ⟨hc1, hc2⟩, if_pos hc3]
      rfl
    rw [h2]
    rfl
  · intro hncond
    rw [htr, List.filter_append, List.filter_append, h1]
    have h2 : ((save_special ok decoded lsn).1).filter isTruncation = [] := by
      unfold save_special
      by_cases hc1 : decoded.xl_rmid = RM_SMGR_ID ∧
          decoded.xl_info &&& XLR_RMGR_INFO_MASK = XLOG_SMGR_TRUNCATE
      · rw [if_pos hc1]
        by_cases hc3 : decoded.smgr_truncate.flags &&& SMGR_TRUNCATE_HEAP ≠ 0
        · exact absurd ⟨hc1.1, hc1.2, hc3⟩ hncond
        · rw [if_neg hc3]
          rfl
      · rw [if_neg hc1]
        by_cases hc4 : decoded.xl_rmid = RM_DBASE_ID ∧
            decoded.xl_info &&& XLR_RMGR_INFO_MASK = XLOG_DBASE_CREATE
        · rw [if_pos hc4]
          rfl
        · rw [if_neg hc4]
          rfl
    rw [h2]
    rfl

/-- Witness for C8 on a concrete heap-truncation record. -/
theorem C8_witness :
    ((save_decoded_record (fun _ => true)
        ⟨RM_SMGR_ID, XLOG_SMGR_TRUNCATE, 0, [], ⟨8, 1, 2, 3, 1⟩, ⟨0, 0, 0, 0⟩⟩
        [] 5).1).filter isTruncation =
      [Call.put_truncation ⟨MAIN_FORKNUM, 1, 2, 3⟩ 5 8] :=
  (C8_smgr_truncate_special_case (fun _ => true)
      ⟨RM_SMGR_ID, XLOG_SMGR_TRUNCATE, 0, [], ⟨8, 1, 2, 3, 1⟩, ⟨0, 0, 0, 0⟩⟩
      [] 5 (by decide)).1 (by decide)

/-- `strip_path_prefix` from `remote_storage.rs`: fails when the prefix
equals the path; otherwise delegates to `Path::strip_prefix`, which fails
when the path does not start with the prefix and otherwise returns the
path with the prefix removed.  Paths are modelled as their component
lists. -/
def strip_path_prefix (pre path : List String) : Except String (List String) :=
  if pre = path then
    Except.error "Prefix and the path are equal, cannot strip"
  else if pre.isPrefixOf path then
    Except.ok (path.drop pre.length)
  else
    Except.error "Path is not prefixed"

/-- C10: `strip_path_prefix(prefix, path)` returns an error when the path
equals the prefix, returns an error when the path does not start with the
prefix, and otherwise returns `Ok` of the path with the prefix removed;
the returned relative path is never empty. -/
theorem C10_strip_path_prefix_spec (pre path : List String) :
    (path = pre → ∃ msg, strip_path_prefix pre path = Except.error msg) ∧
    (pre.isPrefixOf path = false →
      ∃ msg, strip_path_prefix pre path = Except.error msg) ∧
    (pre.isPrefixOf path = true → path ≠ pre →
      strip_path_prefix pre path = Except.ok (path.drop pre.length) ∧
        path.drop pre.length ≠ []) := by
  refine ⟨?_, ?_, ?_⟩
  · intro h
    refine ⟨"Prefix and the path are equal, cannot strip", ?_⟩
    unfold strip_path_prefix
    rw [if_pos h.symm]
  · intro h
    by_cases heq : pre = path
    · refine ⟨"Prefix and the path are equal, cannot strip", ?_⟩
      unfold strip_path_prefix
      rw [if_pos heq]
    · refine ⟨"Path is not prefixed", ?_⟩
      unfold strip_path_prefix
      rw [if_neg heq, if_neg (by simp [h])]
  · intro hpre hne
    have hne' : ¬ pre = path := fun h => hne h.symm
    constructor
    · unfold strip_path_prefix
      rw [if_neg hne', if_pos hpre]
    · have hp : pre <+: path := by
        rwa [List.isPrefixOf_iff_prefix] at hpre
      obtain ⟨t, ht⟩ := hp
      rw [← ht, List.drop_left]
      intro h0
      subst h0
      rw [List.append_nil] at ht
      exact hne' ht

/-- Witness for C10 at a concrete prefix and path. -/
theorem C10_witness :
    strip_path_prefix ["a"] ["a", "b"] =
        Except.ok ((["a", "b"] : List String).drop (["a"] : List String).length) ∧
      (["a", "b"] : List String).drop (["a"] : List String).length ≠ [] :=
  (C10_strip_path_prefix_spec ["a"] ["a", "b"]).2.2 (by decide) (by decide)

end Repo
